import Mathlib

/-!
Verification of the JUCE `RelativeRectangle` excerpt
(`src/gui/components/positioning/juce_RelativeRectangle.cpp`).

The excerpt uses an expression engine (`Expression`), a coordinate wrapper
(`RelativeCoordinate`), the geometry types (`Rectangle<float>`,
`Rectangle<int>`) and a component boundary whose implementations live outside
the excerpt; those parts are modelled from the specification and each such
definition is marked `Modelled from the spec`.  Everything defined directly by
the excerpt (`dependsOnSymbolsOtherThanThis`, the `RelativeRectangle`
constructors and members, `RelativeRectangleLocalScope`, the positioner's
`applyToComponentBounds` and `applyToComponent`) is translated from the source.

Numbers are modelled as rationals; the specification's claims exclude
floating-point edge cases.
-/

mutual

/-- Modelled from the spec: an `Expression` is an immutable tree whose nodes
are numeric constants, named symbols, operator nodes (with an ordered list of
inputs) or function-call nodes.  A qualified symbol such as `other.right`
parses to an operator node whose name is `"."` with two symbol inputs, which
is the shape `dependsOnSymbolsOtherThanThis` tests for. -/
inductive Expression where
  | constant : ℚ → Expression
  | symbol : String → Expression
  | operator : String → ExprList → Expression
  | functionCall : String → ExprList → Expression

/-- Modelled from the spec: the ordered input list of an operator or
function-call node. -/
inductive ExprList where
  | nil : ExprList
  | cons : Expression → ExprList → ExprList

end

mutual

def Expression.beq : Expression → Expression → Bool
  | .constant a, .constant b => a == b
  | .symbol a, .symbol b => a == b
  | .operator a as, .operator b bs => a == b && ExprList.beq as bs
  | .functionCall a as, .functionCall b bs => a == b && ExprList.beq as bs
  | _, _ => false

def ExprList.beq : ExprList → ExprList → Bool
  | .nil, .nil => true
  | .cons a as, .cons b bs => Expression.beq a b && ExprList.beq as bs
  | _, _ => false

end

mutual

theorem Expression.beq_iff_eq_expr : ∀ (a b : Expression), Expression.beq a b = true ↔ a = b
  | .constant a, .constant b => by simp [Expression.beq]
  | .symbol a, .symbol b => by simp [Expression.beq]
  | .operator a as, .operator b bs => by simp [Expression.beq, ExprList.beq_iff_eq_list as bs]
  | .functionCall a as, .functionCall b bs => by simp [Expression.beq, ExprList.beq_iff_eq_list as bs]
  | .constant _, .symbol _ => by simp [Expression.beq]
  | .constant _, .operator _ _ => by simp [Expression.beq]
  | .constant _, .functionCall _ _ => by simp [Expression.beq]
  | .symbol _, .constant _ => by simp [Expression.beq]
  | .symbol _, .operator _ _ => by simp [Expression.beq]
  | .symbol _, .functionCall _ _ => by simp [Expression.beq]
  | .operator _ _, .constant _ => by simp [Expression.beq]
  | .operator _ _, .symbol _ => by simp [Expression.beq]
  | .operator _ _, .functionCall _ _ => by simp [Expression.beq]
  | .functionCall _ _, .constant _ => by simp [Expression.beq]
  | .functionCall _ _, .symbol _ => by simp [Expression.beq]
  | .functionCall _ _, .operator _ _ => by simp [Expression.beq]

theorem ExprList.beq_iff_eq_list : ∀ (a b : ExprList), ExprList.beq a b = true ↔ a = b
  | .nil, .nil => by simp [ExprList.beq]
  | .cons a as, .cons b bs => by simp [ExprList.beq, Expression.beq_iff_eq_expr a b, ExprList.beq_iff_eq_list as bs]
  | .nil, .cons _ _ => by simp [ExprList.beq]
  | .cons _ _, .nil => by simp [ExprList.beq]

end

instance : DecidableEq Expression := fun a b =>
  decidable_of_iff (Expression.beq a b = true) (Expression.beq_iff_eq_expr a b)

instance : DecidableEq ExprList := fun a b =>
  decidable_of_iff (ExprList.beq a b = true) (ExprList.beq_iff_eq_list a b)

/-- Modelled from the spec: the classification of the canonical
self-attribute symbol names used by `RelativeCoordinate::StandardStrings`;
any other name classifies as `unknown`. -/
inductive StandardSymbolType where
  | x | y | left | right | top | bottom | unknown
deriving DecidableEq

/-- Modelled from the spec: `RelativeCoordinate::StandardStrings::getTypeOf`
maps the six canonical self-attribute names to their classification and
everything else to `unknown`. -/
def StandardStrings.getTypeOf (s : String) : StandardSymbolType :=
  if s = "x" then .x
  else if s = "y" then .y
  else if s = "left" then .left
  else if s = "right" then .right
  else if s = "top" then .top
  else if s = "bottom" then .bottom
  else .unknown

/-- Modelled from the spec: the canonical name strings exposed by
`RelativeCoordinate::Strings`. -/
def RelativeCoordinate.Strings.left : String := "left"

/-- Modelled from the spec: the canonical name strings exposed by
`RelativeCoordinate::Strings`. -/
def RelativeCoordinate.Strings.top : String := "top"

mutual

/-- Source `RelativeRectangleHelpers::dependsOnSymbolsOtherThanThis`
(lines 45-73): an operator node named `"."` depends on something else
immediately; a symbol node is local exactly when it is one of the six
canonical self-attribute names; any other node asks its inputs. -/
def dependsOnSymbolsOtherThanThis : Expression → Bool
  | .operator op args => if op = "." then true else dependsOnAnyInput args
  | .symbol name =>
    match StandardStrings.getTypeOf name with
    | .x | .y | .left | .right | .top | .bottom => false
    | .unknown => true
  | .constant _ => false
  | .functionCall _ args => dependsOnAnyInput args

/-- The source iterates the inputs from the last index downwards; for a pure
Boolean disjunction the order of the inputs is immaterial. -/
def dependsOnAnyInput : ExprList → Bool
  | .nil => false
  | .cons a rest => dependsOnSymbolsOtherThanThis a || dependsOnAnyInput rest

end

mutual

/-- Specification-side predicate for claim C3: an expression is purely local
when every leaf symbol is one of the six canonical self-attribute names and
no node is an operator named `"."`. -/
def purelyLocal : Expression → Bool
  | .operator op args => !(op = ".") && purelyLocalList args
  | .symbol name => !(StandardStrings.getTypeOf name = .unknown)
  | .constant _ => true
  | .functionCall _ args => purelyLocalList args

def purelyLocalList : ExprList → Bool
  | .nil => true
  | .cons a rest => purelyLocal a && purelyLocalList rest

end

/-- Modelled from the spec: a scope maps a symbol name to the expression it
stands for; a name with no binding reachable through the scope chain is a
resolution failure (`UnresolvedSymbolError`), modelled as `none`. -/
abbrev Expression.Scope := String → Option Expression

/-- Modelled from the spec: the base `Expression::Scope::getSymbolValue`
knows no symbols, so every lookup fails with `UnresolvedSymbolError`. -/
def Expression.Scope.defaultSymbolValue : Expression.Scope := fun _ => none

/-- Modelled from the spec: the recursion-safety cap on symbol resolution;
recursing past it is a `CyclicDependencyError`, modelled as `none`. -/
def maxRecursionDepth : Nat := 256

/-- Modelled from the spec: evaluation of an expression against a scope.
Operator nodes evaluate all inputs eagerly and combine them; a symbol
evaluates the expression its scope lookup returns; a qualified reference
`a.b` resolves through the lookup of the joined name.  Division by zero is
treated as a resolution error (one of the two policies the spec allows), as
is an unknown operator or a function call, whose implementations are outside
the excerpt. -/
def Expression.evaluate : Nat → Expression.Scope → Expression → Option ℚ
  | 0, _, _ => none
  | fuel + 1, scope, e =>
    match e with
    | .constant value => some value
    | .symbol name =>
      match scope name with
      | some replacement => Expression.evaluate fuel scope replacement
      | none => none
    | .operator op args =>
      match op, args with
      | "+", .cons a (.cons b .nil) =>
        match Expression.evaluate fuel scope a, Expression.evaluate fuel scope b with
        | some x, some y => some (x + y)
        | _, _ => none
      | "-", .cons a .nil =>
        match Expression.evaluate fuel scope a with
        | some x => some (-x)
        | none => none
      | "-", .cons a (.cons b .nil) =>
        match Expression.evaluate fuel scope a, Expression.evaluate fuel scope b with
        | some x, some y => some (x - y)
        | _, _ => none
      | "*", .cons a (.cons b .nil) =>
        match Expression.evaluate fuel scope a, Expression.evaluate fuel scope b with
        | some x, some y => some (x * y)
        | _, _ => none
      | "/", .cons a (.cons b .nil) =>
        match Expression.evaluate fuel scope a, Expression.evaluate fuel scope b with
        | some x, some y => if y = 0 then none else some (x / y)
        | _, _ => none
      | ".", .cons (.symbol a) (.cons (.symbol b) .nil) =>
        match scope (a ++ "." ++ b) with
        | some replacement => Expression.evaluate fuel scope replacement
        | none => none
      | _, _ => none
    | .functionCall _ _ => none

/-- Modelled from the spec: a `RelativeCoordinate` wraps one `Expression`
describing a single scalar geometric quantity. -/
structure RelativeCoordinate where
  term : Expression
deriving DecidableEq

/-- Source accessor `RelativeCoordinate::getExpression`. -/
def RelativeCoordinate.getExpression (c : RelativeCoordinate) : Expression := c.term

/-- Modelled from the spec: `RelativeCoordinate::resolve` evaluates the
stored expression against the scope; a failed resolution falls back to zero
(the fallback the spec names for `UnresolvedSymbolError`). -/
def RelativeCoordinate.resolve (scope : Expression.Scope) (c : RelativeCoordinate) : ℚ :=
  (Expression.evaluate maxRecursionDepth scope c.term).getD 0

/-- Modelled from the spec: `RelativeCoordinate::moveToAbsolute` reverse
solves for the coordinate's own free term and replaces the stored expression
with a constant-shifted version reflecting the solved value, so a constant
coordinate becomes the new constant and a symbolic one keeps its symbolic
relationships and gains a constant offset. -/
def RelativeCoordinate.moveToAbsolute (value : ℚ) (scope : Expression.Scope)
    (c : RelativeCoordinate) : RelativeCoordinate :=
  match c.term with
  | .constant _ => ⟨.constant value⟩
  | t => ⟨.operator "+" (.cons t (.cons (.constant (value - c.resolve scope)) .nil))⟩

/-- Modelled from the spec: `Rectangle<float>`, stored as position and size. -/
structure RectangleF where
  x : ℚ
  y : ℚ
  w : ℚ
  h : ℚ
deriving DecidableEq

def RectangleF.getRight (r : RectangleF) : ℚ := r.x + r.w

def RectangleF.getBottom (r : RectangleF) : ℚ := r.y + r.h

/-- Modelled from the spec: `Rectangle<int>`, the integer bounds a component
consumes. -/
structure RectangleI where
  x : ℤ
  y : ℤ
  w : ℤ
  h : ℤ
deriving DecidableEq

/-- Modelled from the spec: `Rectangle<float>::getSmallestIntegerContainer`,
the smallest integer-aligned rectangle containing the float rectangle:
floor of the left and top edges, ceiling of the right and bottom edges. -/
def RectangleF.getSmallestIntegerContainer (r : RectangleF) : RectangleI :=
  let l : ℤ := ⌊r.x⌋
  let t : ℤ := ⌊r.y⌋
  ⟨l, t, ⌈r.x + r.w⌉ - l, ⌈r.y + r.h⌉ - t⟩

/-- Source `RelativeRectangle` (field order of the class declaration:
left, right, top, bottom). -/
structure RelativeRectangle where
  left : RelativeCoordinate
  right : RelativeCoordinate
  top : RelativeCoordinate
  bottom : RelativeCoordinate
deriving DecidableEq

/-- Source `RelativeRectangle::operator==` (lines 107-110): the four
coordinates compare structurally, in the order left, top, right, bottom. -/
def RelativeRectangle.equals (a b : RelativeRectangle) : Bool :=
  a.left == b.left && a.top == b.top && a.right == b.right && a.bottom == b.bottom

/-- Source `RelativeRectangle::operator!=` (lines 112-115). -/
def RelativeRectangle.notEquals (a b : RelativeRectangle) : Bool :=
  !(a.equals b)

/-- Source class `RelativeRectangleLocalScope` (lines 119-144): a scope that
resolves the canonical self-attribute names to the rectangle's own stored
edge expressions and defers everything else to the base scope lookup. -/
def RelativeRectangleLocalScope (rect : RelativeRectangle) : Expression.Scope := fun symbol =>
  match StandardStrings.getTypeOf symbol with
  | .x | .left => some rect.left.term
  | .y | .top => some rect.top.term
  | .right => some rect.right.term
  | .bottom => some rect.bottom.term
  | .unknown => Expression.Scope.defaultSymbolValue symbol

/-- Source `RelativeRectangle::resolve`, non-null branch (lines 153-161):
resolve the four edges and clamp the width and the height at zero. -/
def RelativeRectangle.resolveWith (scope : Expression.Scope) (rect : RelativeRectangle) :
    RectangleF :=
  let l := rect.left.resolve scope
  let r := rect.right.resolve scope
  let t := rect.top.resolve scope
  let b := rect.bottom.resolve scope
  ⟨l, t, max 0 (r - l), max 0 (b - t)⟩

/-- Source `RelativeRectangle::resolve` (lines 146-162): a null scope is
replaced by the rectangle's own `RelativeRectangleLocalScope`. -/
def RelativeRectangle.resolve (scope : Option Expression.Scope) (rect : RelativeRectangle) :
    RectangleF :=
  match scope with
  | none => rect.resolveWith (RelativeRectangleLocalScope rect)
  | some s => rect.resolveWith s

/-- Source `RelativeRectangle::moveToAbsolute` (lines 164-170): each of the
four coordinates is moved independently, in the order left, right, top,
bottom, and each receives only its own target edge value. -/
def RelativeRectangle.moveToAbsolute (newPos : RectangleF) (scope : Expression.Scope)
    (rect : RelativeRectangle) : RelativeRectangle :=
  ⟨rect.left.moveToAbsolute newPos.x scope,
   rect.right.moveToAbsolute newPos.getRight scope,
   rect.top.moveToAbsolute newPos.y scope,
   rect.bottom.moveToAbsolute newPos.getBottom scope⟩

/-- Source `RelativeRectangle::isDynamic` (lines 172-180). -/
def RelativeRectangle.isDynamic (rect : RelativeRectangle) : Bool :=
  dependsOnSymbolsOtherThanThis rect.left.term
    || dependsOnSymbolsOtherThanThis rect.right.term
    || dependsOnSymbolsOtherThanThis rect.top.term
    || dependsOnSymbolsOtherThanThis rect.bottom.term

/-- Source constructor `RelativeRectangle (const Rectangle<float>&)`
(lines 87-93): left and top are the literal position, right is
`left + width`, bottom is `top + height`. -/
def RelativeRectangle.ofRectangle (rect : RectangleF) : RelativeRectangle :=
  ⟨⟨.constant rect.x⟩,
   ⟨.operator "+" (.cons (.symbol RelativeCoordinate.Strings.left) (.cons (.constant rect.w) .nil))⟩,
   ⟨.constant rect.y⟩,
   ⟨.operator "+" (.cons (.symbol RelativeCoordinate.Strings.top) (.cons (.constant rect.h) .nil))⟩⟩

/-- Modelled from the spec boundary contract: the externally owned geometry
owner, exposing integer bounds and an exclusively owned positioner slot.  A
positioner's only state in the excerpt is the `RelativeRectangle` snapshot it
captured, so the slot stores that snapshot. -/
structure Component where
  bounds : RectangleI
  positioner : Option RelativeRectangle
deriving DecidableEq

/-- Modelled from the spec boundary contract: `GetBounds`. -/
def Component.getBounds (c : Component) : RectangleI := c.bounds

/-- Modelled from the spec boundary contract: `SetBounds` replaces the
owner's bounds and touches nothing else. -/
def Component.setBounds (newBounds : RectangleI) (c : Component) : Component :=
  ⟨newBounds, c.positioner⟩

/-- Modelled from the spec boundary contract: `SetPositioner` replaces the
owner's positioner slot, discarding the previous holder. -/
def Component.setPositioner (p : Option RelativeRectangle) (c : Component) : Component :=
  ⟨c.bounds, p⟩

/-- Modelled from the spec: the `ComponentScope` used by the positioner binds
the canonical self-attribute names to the owner's current bounds; everything
else is outside the excerpt and fails to resolve. -/
def ComponentScope (c : Component) : Expression.Scope := fun symbol =>
  match StandardStrings.getTypeOf symbol with
  | .x | .left => some (.constant (c.bounds.x : ℚ))
  | .y | .top => some (.constant (c.bounds.y : ℚ))
  | .right => some (.constant ((c.bounds.x + c.bounds.w : ℤ) : ℚ))
  | .bottom => some (.constant ((c.bounds.y + c.bounds.h : ℤ) : ℚ))
  | .unknown => none

/-- Source `RelativeRectangleComponentPositioner::isUsingRectangle`
(lines 214-217): the held snapshot compares structurally with the other
rectangle. -/
def isUsingRectangle (held other : RelativeRectangle) : Bool :=
  held.equals other

/-- Source `RelativeRectangleComponentPositioner::applyToComponentBounds`
(lines 219-233), with the `for` loop unrolled into recursion on the counter.
Each iteration resolves the snapshot against a scope bound to the current
owner; at a fixed point it returns with no further effect, otherwise it sets
the owner's bounds and loops.  The result carries the final component, the
list of bounds passed to `setBounds` in order, and whether the counter was
exhausted (the source's `jassertfalse` recursive-reference flag). -/
def applyToComponentBoundsLoop (rectangle : RelativeRectangle) :
    Nat → Component → Component × List RectangleI × Bool
  | 0, component => (component, [], true)
  | i + 1, component =>
    let newBounds := (rectangle.resolveWith (ComponentScope component)).getSmallestIntegerContainer
    if newBounds = component.bounds then (component, [], false)
    else
      let next := applyToComponentBoundsLoop rectangle i (component.setBounds newBounds)
      (next.1, newBounds :: next.2.1, next.2.2)

/-- Source `applyToComponentBounds`: the loop counter starts at 4, so at most
four resolve-and-set iterations run before the recursive-reference flag. -/
def applyToComponentBounds (rectangle : RelativeRectangle) (component : Component) :
    Component × List RectangleI × Bool :=
  applyToComponentBoundsLoop rectangle 4 component

/-- Source `RelativeRectangle::applyToComponent` (lines 252-271).  A dynamic
rectangle attaches a new positioner holding a snapshot of the rectangle and
applies it once, unless the owner's current positioner already holds a
structurally equal rectangle; a non-dynamic rectangle removes any positioner
and sets the bounds from a one-shot resolution with the default scope.  The
positioner's `apply` (declared outside the excerpt) is modelled from the
spec as one run of `applyToComponentBounds`; its dependency registration is
change-notification bookkeeping with no effect on the owner's state here. -/
def RelativeRectangle.applyToComponent (rect : RelativeRectangle) (component : Component) :
    Component :=
  if rect.isDynamic then
    match component.positioner with
    | some held =>
      if isUsingRectangle held rect then component
      else (applyToComponentBounds rect (component.setPositioner (some rect))).1
    | none => (applyToComponentBounds rect (component.setPositioner (some rect))).1
  else
    ((component.setPositioner none).setBounds ((rect.resolve none).getSmallestIntegerContainer))

/-- The self-referential rectangle of claim C4: its right edge is the
expression `right + 1`, which can never reach a fixed point. -/
def cyclicRightRectangle : RelativeRectangle :=
  ⟨⟨.constant 0⟩,
   ⟨.operator "+" (.cons (.symbol "right") (.cons (.constant 1) .nil))⟩,
   ⟨.constant 0⟩,
   ⟨.constant 1⟩⟩

/-- Character class used by the modelled text format: whitespace is space,
tab, line feed or carriage return. -/
def isSpaceChar (c : Char) : Bool :=
  c.toNat = 32 || c.toNat = 9 || c.toNat = 10 || c.toNat = 13

/-- Modelled from the spec: `findEndOfWhitespace` on a character pointer. -/
def skipWhitespace (cs : List Char) : List Char := cs.dropWhile isSpaceChar

/-- Decimal digit, by code point. -/
def isDigitChar (c : Char) : Bool := 48 ≤ c.toNat && c.toNat ≤ 57

/-- First character of an identifier: a letter or an underscore. -/
def isIdentStart (c : Char) : Bool :=
  (97 ≤ c.toNat && c.toNat ≤ 122) || (65 ≤ c.toNat && c.toNat ≤ 90) || c.toNat = 95

/-- Later character of an identifier: alphanumeric or an underscore. -/
def isIdentChar (c : Char) : Bool := isIdentStart c || isDigitChar c

/-- A string that is one well-formed identifier of the grammar. -/
def identOk (s : String) : Bool :=
  match s.data with
  | [] => false
  | c :: cs => isIdentStart c && cs.all isIdentChar

/-- The decimal digit character for a digit value below ten. -/
def digitChar : Nat → Char
  | 0 => '0'
  | 1 => '1'
  | 2 => '2'
  | 3 => '3'
  | 4 => '4'
  | 5 => '5'
  | 6 => '6'
  | 7 => '7'
  | 8 => '8'
  | _ => '9'

/-- Digit extraction for printing a natural number, most significant digit
first; the fuel argument bounds the division chain. -/
def natCharsAux : Nat → Nat → List Char
  | 0, _ => []
  | fuel + 1, n => if n < 10 then [digitChar n] else natCharsAux fuel (n / 10) ++ [digitChar (n % 10)]

/-- The decimal digit string of a natural number. -/
def natChars (n : Nat) : List Char := natCharsAux (n + 1) n

/-- The value of a big-endian decimal digit string. -/
def natFromDigits (ds : List Char) : Nat :=
  ds.foldl (fun a c => 10 * a + (c.toNat - 48)) 0

mutual

/-- Modelled from the spec: the serialization of one expression in the
round-trip text grammar.  Compound arithmetic is printed fully parenthesised,
a qualified reference prints as `a.b`, a function call as `name(args)`. -/
def printExpression : Expression → List Char
  | .constant value => natChars value.num.toNat
  | .symbol name => name.data
  | .operator op args =>
    if op = "." then
      match args with
      | .cons (.symbol a) (.cons (.symbol b) .nil) => a.data ++ '.' :: b.data
      | _ => []
    else
      match args with
      | .cons a .nil => if op = "-" then '-' :: printExpression a else []
      | .cons a (.cons b .nil) =>
        if op = "+" then '(' :: (printExpression a ++ '+' :: printExpression b ++ [')'])
        else if op = "-" then '(' :: (printExpression a ++ '-' :: printExpression b ++ [')'])
        else if op = "*" then '(' :: (printExpression a ++ '*' :: printExpression b ++ [')'])
        else if op = "/" then '(' :: (printExpression a ++ '/' :: printExpression b ++ [')'])
        else []
      | _ => []
  | .functionCall name args =>
    match args with
    | .cons a rest => name.data ++ '(' :: (printExpression a ++ printArgsTail rest ++ [')'])
    | .nil => []

/-- The printed tail of a function-call argument list: a comma before each
further argument. -/
def printArgsTail : ExprList → List Char
  | .nil => []
  | .cons a rest => ',' :: (printExpression a ++ printArgsTail rest)

end

mutual

/-- The expressions whose serialization the grammar can reproduce exactly:
constants are natural numbers (the grammar's numeric literals, excluding the
spec's floating-point edge cases), symbols and function names are
identifiers, a qualified reference joins two identifiers, and operator
nodes have the grammar's shapes. -/
def printable : Expression → Bool
  | .constant value => value.den == 1 && decide (0 ≤ value.num)
  | .symbol name => identOk name
  | .operator op args =>
    if op = "." then
      match args with
      | .cons (.symbol a) (.cons (.symbol b) .nil) => identOk a && identOk b
      | _ => false
    else
      match args with
      | .cons a .nil => op = "-" && printable a
      | .cons a (.cons b .nil) =>
        (op = "+" || op = "-" || op = "*" || op = "/") && printable a && printable b
      | _ => false
  | .functionCall name args =>
    match args with
    | .cons a rest => identOk name && printable a && printableList rest
    | .nil => false

def printableList : ExprList → Bool
  | .nil => true
  | .cons a rest => printable a && printableList rest

end

/-- A rectangle all four of whose coordinate expressions are printable. -/
def printableRectangle (rect : RelativeRectangle) : Bool :=
  printable rect.left.term && printable rect.right.term
    && printable rect.top.term && printable rect.bottom.term

/-- Modelled from the spec: `RelativeCoordinate::toString` serializes the
stored expression. -/
def RelativeCoordinate.toString (c : RelativeCoordinate) : String :=
  String.mk (printExpression c.term)

/-- Source `RelativeRectangle::toString` (lines 182-185): the four
coordinates serialize comma-separated in the order left, top, right,
bottom. -/
def RelativeRectangle.toString (rect : RelativeRectangle) : String :=
  rect.left.toString ++ ", " ++ rect.top.toString ++ ", "
    ++ rect.right.toString ++ ", " ++ rect.bottom.toString

def ExprList.append : ExprList → ExprList → ExprList
  | .nil, ys => ys
  | .cons x xs, ys => .cons x (ExprList.append xs ys)

def ExprList.concat (xs : ExprList) (x : Expression) : ExprList :=
  xs.append (.cons x .nil)

/-- The recursive-descent state of the modelled parser: which grammar rule is
being read, with the left-accumulated value inside the repetition loops. -/
inductive ParseMode where
  | pExpression
  | pExpressionLoop (acc : Expression)
  | pTerm
  | pTermLoop (acc : Expression)
  | pFactor
  | pArgs (name : String)
  | pArgsLoop (name : String) (acc : ExprList)

/-- Modelled from the spec: reading one numeric literal, whose first digit
has already been seen.  Digits before an optional fraction part form the
integer part; a dot counts as part of the number only when a digit follows
it. -/
def parseNumber (c : Char) (cs : List Char) : Expression × List Char :=
  let ds := (c :: cs).takeWhile isDigitChar
  let rest := (c :: cs).dropWhile isDigitChar
  let intPart : Nat := natFromDigits ds
  match rest with
  | r :: rs =>
    if r = '.' then
      match rs with
      | d :: _ =>
        if isDigitChar d then
          let fs := rs.takeWhile isDigitChar
          (.constant ((intPart : ℚ) + (natFromDigits fs : ℚ) / (10 : ℚ) ^ fs.length),
            rs.dropWhile isDigitChar)
        else (.constant (intPart : ℚ), rest)
      | [] => (.constant (intPart : ℚ), rest)
    else (.constant (intPart : ℚ), rest)
  | [] => (.constant (intPart : ℚ), [])

/-- Modelled from the spec: the recursive-descent parser for the grammar
(section 6): `expr := term (('+'|'-') term)*`, `term := factor (('*'|'/')
factor)*`, `factor := number | symbol | '(' expr ')' | '-' factor | symbol
'(' expr (',' expr)* ')'`, `symbol := identifier ('.' identifier)?`,
with whitespace skipped before each token.  The fuel argument bounds the
recursion; every recursive call spends one unit. -/
def parseRun : Nat → ParseMode → List Char → Option (Expression × List Char)
  | 0, _, _ => none
  | fuel + 1, mode, cs =>
    match mode with
    | .pExpression =>
      match parseRun fuel .pTerm cs with
      | some (t, cs1) => parseRun fuel (.pExpressionLoop t) cs1
      | none => none
    | .pExpressionLoop acc =>
      match skipWhitespace cs with
      | c :: cs1 =>
        if c = '+' then
          match parseRun fuel .pTerm cs1 with
          | some (t, cs2) =>
            parseRun fuel (.pExpressionLoop (.operator "+" (.cons acc (.cons t .nil)))) cs2
          | none => none
        else if c = '-' then
          match parseRun fuel .pTerm cs1 with
          | some (t, cs2) =>
            parseRun fuel (.pExpressionLoop (.operator "-" (.cons acc (.cons t .nil)))) cs2
          | none => none
        else some (acc, cs)
      | [] => some (acc, cs)
    | .pTerm =>
      match parseRun fuel .pFactor cs with
      | some (f, cs1) => parseRun fuel (.pTermLoop f) cs1
      | none => none
    | .pTermLoop acc =>
      match skipWhitespace cs with
      | c :: cs1 =>
        if c = '*' then
          match parseRun fuel .pFactor cs1 with
          | some (f, cs2) =>
            parseRun fuel (.pTermLoop (.operator "*" (.cons acc (.cons f .nil)))) cs2
          | none => none
        else if c = '/' then
          match parseRun fuel .pFactor cs1 with
          | some (f, cs2) =>
            parseRun fuel (.pTermLoop (.operator "/" (.cons acc (.cons f .nil)))) cs2
          | none => none
        else some (acc, cs)
      | [] => some (acc, cs)
    | .pFactor =>
      match skipWhitespace cs with
      | [] => none
      | c :: cs1 =>
        if c = '(' then
          match parseRun fuel .pExpression cs1 with
          | some (e, cs2) =>
            match skipWhitespace cs2 with
            | c2 :: cs3 => if c2 = ')' then some (e, cs3) else none
            | [] => none
          | none => none
        else if c = '-' then
          match parseRun fuel .pFactor cs1 with
          | some (f, cs2) => some (.operator "-" (.cons f .nil), cs2)
          | none => none
        else if isDigitChar c then
          some (parseNumber c cs1)
        else if isIdentStart c then
          let name := String.mk ((c :: cs1).takeWhile isIdentChar)
          let afterIdent := (c :: cs1).dropWhile isIdentChar
          match afterIdent with
          | a :: as =>
            if a = '.' then
              match as with
              | d :: ds =>
                if isIdentStart d then
                  some (.operator "." (.cons (.symbol name)
                      (.cons (.symbol (String.mk ((d :: ds).takeWhile isIdentChar))) .nil)),
                    (d :: ds).dropWhile isIdentChar)
                else none
              | [] => none
            else if a = '(' then parseRun fuel (.pArgs name) as
            else some (.symbol name, afterIdent)
          | [] => some (.symbol name, [])
        else none
    | .pArgs name =>
      match parseRun fuel .pExpression cs with
      | some (e, cs1) => parseRun fuel (.pArgsLoop name (.cons e .nil)) cs1
      | none => none
    | .pArgsLoop name acc =>
      match skipWhitespace cs with
      | c :: cs1 =>
        if c = ',' then
          match parseRun fuel .pExpression cs1 with
          | some (e, cs2) => parseRun fuel (.pArgsLoop name (acc.concat e)) cs2
          | none => none
        else if c = ')' then some (.functionCall name acc, cs1)
        else none
      | [] => none

/-- Modelled from the spec: `Expression::parse` reads one expression from the
front of the text, as far as it can, and returns the rest of the text; the
fuel supplied is ample for any input of that length. -/
def Expression.parse (cs : List Char) : Option (Expression × List Char) :=
  parseRun (10 * cs.length + 10) .pExpression cs

/-- Source `RelativeRectangleHelpers::skipComma` (lines 37-43): skip
whitespace, then one comma if present. -/
def skipComma (cs : List Char) : List Char :=
  match skipWhitespace cs with
  | c :: rest => if c = ',' then rest else c :: rest
  | [] => []

/-- Source constructor `RelativeRectangle (const String&)` (lines 95-105):
four expressions are parsed from the text, separated by `skipComma`, and
assigned in the order left, top, right, bottom.  A parse failure in the
source throws out of the constructor, modelled as `none`. -/
def RelativeRectangle.fromString (s : String) : Option RelativeRectangle :=
  match Expression.parse s.data with
  | none => none
  | some (l, cs1) =>
    match Expression.parse (skipComma cs1) with
    | none => none
    | some (t, cs2) =>
      match Expression.parse (skipComma cs2) with
      | none => none
      | some (r, cs3) =>
        match Expression.parse (skipComma cs3) with
        | none => none
        | some (b, _) => some ⟨⟨l⟩, ⟨r⟩, ⟨t⟩, ⟨b⟩⟩

mutual

/-- Fuel sufficient for `parseRun` to read the printed form of an
expression back. -/
def parseNeed : Expression → Nat
  | .constant _ => 1
  | .symbol _ => 1
  | .operator op args =>
    if op = "." then 1
    else
      match args with
      | .cons a .nil => parseNeed a + 1
      | .cons a (.cons b .nil) => parseNeed a + parseNeed b + 8
      | _ => 1
  | .functionCall _ args =>
    match args with
    | .cons a rest => parseNeed a + parseNeedList rest + 8
    | .nil => 1

def parseNeedList : ExprList → Nat
  | .nil => 1
  | .cons a rest => parseNeed a + parseNeedList rest + 6

end

/-- Text at which a factor's read stops: the end, an operator, a close
parenthesis or a comma. -/
def isFactorStop (cs : List Char) : Bool :=
  match cs with
  | [] => true
  | c :: _ => c = '+' || c = '-' || c = '*' || c = '/' || c = ')' || c = ','

/-- Text at which a term's read stops. -/
def isTermStop (cs : List Char) : Bool :=
  match cs with
  | [] => true
  | c :: _ => c = '+' || c = '-' || c = ')' || c = ','

/-- Text at which an expression's read stops. -/
def isExprStop (cs : List Char) : Bool :=
  match cs with
  | [] => true
  | c :: _ => c = ')' || c = ','

/-- A concrete rectangle with constant edges, used as a sample input. -/
def constantRectangle : RelativeRectangle :=
  ⟨⟨.constant 1⟩, ⟨.constant 5⟩, ⟨.constant 2⟩, ⟨.constant 7⟩⟩

/-- A concrete dynamic rectangle whose left edge is the qualified reference
`other.right`, used as a sample input. -/
def dynamicRectangle : RelativeRectangle :=
  ⟨⟨.operator "." (.cons (.symbol "other") (.cons (.symbol "right") .nil))⟩,
   ⟨.constant 5⟩, ⟨.constant 2⟩, ⟨.constant 7⟩⟩

/-- A component sitting exactly at `constantRectangle`'s resolution. -/
def fixedComponent : Component := ⟨⟨1, 2, 4, 5⟩, none⟩

/-- A component at the origin with no positioner. -/
def emptyComponent : Component := ⟨⟨0, 0, 0, 0⟩, none⟩

/-- A component whose positioner already holds `dynamicRectangle`. -/
def heldComponent : Component := ⟨⟨0, 0, 0, 0⟩, some dynamicRectangle⟩

theorem evaluate_constant (scope : Expression.Scope) (v : ℚ) :
    ∀ fuel, 1 ≤ fuel → Expression.evaluate fuel scope (.constant v) = some v := by
  intro fuel h
  obtain ⟨g, rfl⟩ : ∃ g, fuel = g + 1 := ⟨fuel - 1, by omega⟩
  rfl

theorem evaluate_plus_symbol_constant (scope : Expression.Scope) (name : String) (q w : ℚ)
    (h : scope name = some (.constant q)) :
    ∀ fuel, 3 ≤ fuel →
      Expression.evaluate fuel scope
        (.operator "+" (.cons (.symbol name) (.cons (.constant w) .nil))) = some (q + w) := by
  intro fuel hf
  obtain ⟨g, rfl⟩ : ∃ g, fuel = g + 1 + 1 + 1 := ⟨fuel - 3, by omega⟩
  simp only [Expression.evaluate, h]

theorem resolve_constant (scope : Expression.Scope) (v : ℚ) :
    RelativeCoordinate.resolve scope ⟨.constant v⟩ = v := by
  simp [RelativeCoordinate.resolve,
    evaluate_constant scope v maxRecursionDepth (by norm_num [maxRecursionDepth])]

theorem resolve_plus_symbol_constant (scope : Expression.Scope) (name : String) (q w : ℚ)
    (h : scope name = some (.constant q)) :
    RelativeCoordinate.resolve scope
      ⟨.operator "+" (.cons (.symbol name) (.cons (.constant w) .nil))⟩ = q + w := by
  simp [RelativeCoordinate.resolve,
    evaluate_plus_symbol_constant scope name q w h maxRecursionDepth
      (by norm_num [maxRecursionDepth])]

/-- C1: for every rectangle and every scope, `resolve` returns the rectangle
whose `x` is the resolved left, `y` the resolved top, whose width is
`max 0 (right - left)` and whose height is `max 0 (bottom - top)`; width and
height are never negative, with either form of the scope argument. -/
theorem resolve_clamps_width_and_height (rect : RelativeRectangle) (scope : Expression.Scope) :
    rect.resolveWith scope =
      ⟨rect.left.resolve scope, rect.top.resolve scope,
        max 0 (rect.right.resolve scope - rect.left.resolve scope),
        max 0 (rect.bottom.resolve scope - rect.top.resolve scope)⟩
    ∧ 0 ≤ (rect.resolveWith scope).w ∧ 0 ≤ (rect.resolveWith scope).h
    ∧ ∀ osc : Option Expression.Scope, 0 ≤ (rect.resolve osc).w ∧ 0 ≤ (rect.resolve osc).h := by
  refine ⟨rfl, le_max_left 0 _, le_max_left 0 _, ?_⟩
  intro osc
  cases osc <;> exact ⟨le_max_left 0 _, le_max_left 0 _⟩

mutual

theorem depends_eq_not_purelyLocal :
    ∀ (e : Expression), dependsOnSymbolsOtherThanThis e = !purelyLocal e
  | .constant v => by simp [dependsOnSymbolsOtherThanThis, purelyLocal]
  | .symbol name => by
    simp only [dependsOnSymbolsOtherThanThis, purelyLocal]
    cases h : StandardStrings.getTypeOf name <;> simp [h]
  | .operator op args => by
    by_cases hop : op = "."
    · simp [dependsOnSymbolsOtherThanThis, purelyLocal, hop]
    · simp [dependsOnSymbolsOtherThanThis, purelyLocal, hop,
        dependsAny_eq_not_purelyLocalList args]
  | .functionCall f args => by
    simp [dependsOnSymbolsOtherThanThis, purelyLocal, dependsAny_eq_not_purelyLocalList args]

theorem dependsAny_eq_not_purelyLocalList :
    ∀ (l : ExprList), dependsOnAnyInput l = !purelyLocalList l
  | .nil => by simp [dependsOnAnyInput, purelyLocalList]
  | .cons a rest => by
    simp [dependsOnAnyInput, purelyLocalList, depends_eq_not_purelyLocal a,
      dependsAny_eq_not_purelyLocalList rest]

end

/-- C3: a rectangle is non-dynamic exactly when all four coordinate
expressions are purely local (every leaf symbol canonical, no operator node
named `"."`); an operator node named `"."` is dynamic regardless of its
operands, and a bare symbol is dynamic exactly when it is not one of the six
canonical names. -/
theorem isDynamic_characterization (rect : RelativeRectangle) :
    rect.isDynamic =
      !(purelyLocal rect.left.term && purelyLocal rect.right.term
          && purelyLocal rect.top.term && purelyLocal rect.bottom.term)
    ∧ (∀ args : ExprList, dependsOnSymbolsOtherThanThis (.operator "." args) = true)
    ∧ (∀ name : String,
        dependsOnSymbolsOtherThanThis (.symbol name)
          = decide (StandardStrings.getTypeOf name = .unknown)) := by
  refine ⟨?_, fun args => by simp [dependsOnSymbolsOtherThanThis], fun name => ?_⟩
  · simp only [RelativeRectangle.isDynamic, depends_eq_not_purelyLocal]
    cases purelyLocal rect.left.term <;> cases purelyLocal rect.right.term
      <;> cases purelyLocal rect.top.term <;> cases purelyLocal rect.bottom.term <;> rfl
  · rw [depends_eq_not_purelyLocal]
    simp [purelyLocal]

/-- C7: `moveToAbsolute` moves the four coordinates independently, each
receiving only its own target edge (left takes `x`, right takes the right
edge, top takes `y`, bottom takes the bottom edge), and each resulting
coordinate depends only on the corresponding original coordinate, so there is
no coordinated solving across edges. -/
theorem moveToAbsolute_per_edge (rect : RelativeRectangle) (newPos : RectangleF)
    (scope : Expression.Scope) :
    rect.moveToAbsolute newPos scope =
      ⟨rect.left.moveToAbsolute newPos.x scope,
       rect.right.moveToAbsolute newPos.getRight scope,
       rect.top.moveToAbsolute newPos.y scope,
       rect.bottom.moveToAbsolute newPos.getBottom scope⟩
    ∧ ∀ other : RelativeRectangle,
        (rect.left = other.left →
          (rect.moveToAbsolute newPos scope).left = (other.moveToAbsolute newPos scope).left)
        ∧ (rect.right = other.right →
          (rect.moveToAbsolute newPos scope).right = (other.moveToAbsolute newPos scope).right)
        ∧ (rect.top = other.top →
          (rect.moveToAbsolute newPos scope).top = (other.moveToAbsolute newPos scope).top)
        ∧ (rect.bottom = other.bottom →
          (rect.moveToAbsolute newPos scope).bottom = (other.moveToAbsolute newPos scope).bottom) := by
  refine ⟨rfl, fun other => ⟨?_, ?_, ?_, ?_⟩⟩ <;> intro h <;>
    simp [RelativeRectangle.moveToAbsolute, h]

/-- C7 witness. -/
theorem moveToAbsolute_per_edge_witness :
    (constantRectangle.moveToAbsolute ⟨0, 0, 1, 1⟩ Expression.Scope.defaultSymbolValue).left
      = (constantRectangle.moveToAbsolute ⟨0, 0, 1, 1⟩ Expression.Scope.defaultSymbolValue).left :=
  ((moveToAbsolute_per_edge constantRectangle ⟨0, 0, 1, 1⟩
    Expression.Scope.defaultSymbolValue).2 constantRectangle).1 rfl

theorem relativeCoordinate_eq_iff (c d : RelativeCoordinate) : c = d ↔ c.term = d.term := by
  cases c
  cases d
  simp

/-- C8: structural equality: `equals` holds exactly when the four underlying
expressions agree, and `notEquals` is its Boolean negation. -/
theorem equals_structural (a b : RelativeRectangle) :
    (a.equals b = true ↔
      a.left.term = b.left.term ∧ a.top.term = b.top.term
        ∧ a.right.term = b.right.term ∧ a.bottom.term = b.bottom.term)
    ∧ a.notEquals b = !(a.equals b) := by
  refine ⟨?_, rfl⟩
  simp [RelativeRectangle.equals, relativeCoordinate_eq_iff, and_assoc]

/-- C9: a null scope resolves through the rectangle's own local scope, in
which `x` and `left` stand for the stored left expression, `y` and `top` for
the top one, `right` and `bottom` for theirs, and any non-canonical name
falls back to the base scope lookup. -/
theorem resolve_null_uses_local_scope (rect : RelativeRectangle) :
    rect.resolve none = rect.resolveWith (RelativeRectangleLocalScope rect)
    ∧ RelativeRectangleLocalScope rect "x" = some rect.left.getExpression
    ∧ RelativeRectangleLocalScope rect "left" = some rect.left.getExpression
    ∧ RelativeRectangleLocalScope rect "y" = some rect.top.getExpression
    ∧ RelativeRectangleLocalScope rect "top" = some rect.top.getExpression
    ∧ RelativeRectangleLocalScope rect "right" = some rect.right.getExpression
    ∧ RelativeRectangleLocalScope rect "bottom" = some rect.bottom.getExpression
    ∧ ∀ symbol : String, StandardStrings.getTypeOf symbol = .unknown →
        RelativeRectangleLocalScope rect symbol = Expression.Scope.defaultSymbolValue symbol := by
  refine ⟨rfl, rfl, rfl, rfl, rfl, rfl, rfl, fun symbol h => ?_⟩
  simp [RelativeRectangleLocalScope, h]

/-- C9 witness. -/
theorem resolve_null_uses_local_scope_witness :
    constantRectangle.resolve none
      = constantRectangle.resolveWith (RelativeRectangleLocalScope constantRectangle)
    ∧ RelativeRectangleLocalScope constantRectangle "other"
      = Expression.Scope.defaultSymbolValue "other" :=
  ⟨(resolve_null_uses_local_scope constantRectangle).1,
   (resolve_null_uses_local_scope constantRectangle).2.2.2.2.2.2.2 "other" (by decide)⟩

/-- C10: a rectangle built from a literal float rectangle is never dynamic,
and with non-negative width and height a null-scope resolution reproduces the
original rectangle exactly. -/
theorem ofRectangle_not_dynamic_and_reproduces (r : RectangleF)
    (hw : 0 ≤ r.w) (hh : 0 ≤ r.h) :
    (RelativeRectangle.ofRectangle r).isDynamic = false
    ∧ (RelativeRectangle.ofRectangle r).resolve none = r := by
  obtain ⟨x, y, w, h⟩ := r
  have hw' : 0 ≤ w := hw
  have hh' : 0 ≤ h := hh
  refine ⟨rfl, ?_⟩
  have hleft : RelativeRectangleLocalScope (RelativeRectangle.ofRectangle ⟨x, y, w, h⟩)
      RelativeCoordinate.Strings.left = some (.constant x) := rfl
  have htop : RelativeRectangleLocalScope (RelativeRectangle.ofRectangle ⟨x, y, w, h⟩)
      RelativeCoordinate.Strings.top = some (.constant y) := rfl
  have hL : RelativeCoordinate.resolve
      (RelativeRectangleLocalScope (RelativeRectangle.ofRectangle ⟨x, y, w, h⟩))
      (RelativeRectangle.ofRectangle ⟨x, y, w, h⟩).left = x := resolve_constant _ x
  have hT : RelativeCoordinate.resolve
      (RelativeRectangleLocalScope (RelativeRectangle.ofRectangle ⟨x, y, w, h⟩))
      (RelativeRectangle.ofRectangle ⟨x, y, w, h⟩).top = y := resolve_constant _ y
  have hRt : RelativeCoordinate.resolve
      (RelativeRectangleLocalScope (RelativeRectangle.ofRectangle ⟨x, y, w, h⟩))
      (RelativeRectangle.ofRectangle ⟨x, y, w, h⟩).right = x + w :=
    resolve_plus_symbol_constant _ _ x w hleft
  have hB : RelativeCoordinate.resolve
      (RelativeRectangleLocalScope (RelativeRectangle.ofRectangle ⟨x, y, w, h⟩))
      (RelativeRectangle.ofRectangle ⟨x, y, w, h⟩).bottom = y + h :=
    resolve_plus_symbol_constant _ _ y h htop
  show RelativeRectangle.resolveWith
      (RelativeRectangleLocalScope (RelativeRectangle.ofRectangle ⟨x, y, w, h⟩))
      (RelativeRectangle.ofRectangle ⟨x, y, w, h⟩) = ⟨x, y, w, h⟩
  simp only [RelativeRectangle.resolveWith, hL, hT, hRt, hB]
  simp [add_sub_cancel_left, max_eq_right hw', max_eq_right hh']

/-- C10 witness. -/
theorem ofRectangle_witness :
    (RelativeRectangle.ofRectangle ⟨1, 2, 3, 4⟩).isDynamic = false
    ∧ (RelativeRectangle.ofRectangle ⟨1, 2, 3, 4⟩).resolve none = ⟨1, 2, 3, 4⟩ :=
  ofRectangle_not_dynamic_and_reproduces ⟨1, 2, 3, 4⟩ (by norm_num) (by norm_num)

theorem getSmallestIntegerContainer_int (a b c d : ℤ) :
    RectangleF.getSmallestIntegerContainer ⟨(a : ℚ), (b : ℚ), (c : ℚ), (d : ℚ)⟩ = ⟨a, b, c, d⟩ := by
  have hac : ⌈(a : ℚ) + (c : ℚ)⌉ = a + c := by rw [← Int.cast_add, Int.ceil_intCast]
  have hbd : ⌈(b : ℚ) + (d : ℚ)⌉ = b + d := by rw [← Int.cast_add, Int.ceil_intCast]
  simp only [RectangleF.getSmallestIntegerContainer, hac, hbd, Int.floor_intCast]
  simp only [RectangleI.mk.injEq]
  exact ⟨trivial, trivial, by omega, by omega⟩

theorem cyclic_resolveWith (c : Component) :
    (cyclicRightRectangle.resolveWith (ComponentScope c)).getSmallestIntegerContainer
      = ⟨0, 0, max 0 (c.bounds.x + c.bounds.w + 1), 1⟩ := by
  have hright : ComponentScope c "right"
      = some (.constant ((c.bounds.x + c.bounds.w : ℤ) : ℚ)) := rfl
  have hL : RelativeCoordinate.resolve (ComponentScope c) cyclicRightRectangle.left = 0 :=
    resolve_constant _ 0
  have hT : RelativeCoordinate.resolve (ComponentScope c) cyclicRightRectangle.top = 0 :=
    resolve_constant _ 0
  have hB : RelativeCoordinate.resolve (ComponentScope c) cyclicRightRectangle.bottom = 1 :=
    resolve_constant _ 1
  have hR : RelativeCoordinate.resolve (ComponentScope c) cyclicRightRectangle.right
      = ((c.bounds.x + c.bounds.w : ℤ) : ℚ) + 1 :=
    resolve_plus_symbol_constant _ _ _ 1 hright
  simp only [RelativeRectangle.resolveWith, hL, hT, hB, hR]
  have e1 : ((c.bounds.x + c.bounds.w : ℤ) : ℚ) + 1 - 0
      = ((c.bounds.x + c.bounds.w + 1 : ℤ) : ℚ) := by push_cast; ring
  rw [e1]
  have e2 : max (0 : ℚ) ((c.bounds.x + c.bounds.w + 1 : ℤ) : ℚ)
      = ((max 0 (c.bounds.x + c.bounds.w + 1) : ℤ) : ℚ) := by
    rw [Int.cast_max, Int.cast_zero]
  have e3 : max (0 : ℚ) (1 - 0) = ((1 : ℤ) : ℚ) := by norm_num
  rw [e2, e3]
  rw [show (0 : ℚ) = ((0 : ℤ) : ℚ) from by norm_num]
  exact getSmallestIntegerContainer_int 0 0 _ 1

theorem cyclic_step (c : Component) :
    (cyclicRightRectangle.resolveWith (ComponentScope c)).getSmallestIntegerContainer
      ≠ c.bounds := by
  rw [cyclic_resolveWith]
  intro hEq
  have h1 := congrArg RectangleI.x hEq
  have h3 := congrArg RectangleI.w hEq
  simp only at h1 h3
  omega

theorem cyclicLoop_flags : ∀ (n : Nat) (c : Component),
    (applyToComponentBoundsLoop cyclicRightRectangle n c).2.2 = true
    ∧ (applyToComponentBoundsLoop cyclicRightRectangle n c).2.1.length = n := by
  intro n
  induction n with
  | zero => intro c; exact ⟨rfl, rfl⟩
  | succ i ih =>
    intro c
    simp only [applyToComponentBoundsLoop]
    rw [if_neg (cyclic_step c)]
    exact ⟨(ih _).1, by simp [(ih _).2]⟩

theorem applyLoop_length_le (rect : RelativeRectangle) :
    ∀ (n : Nat) (c : Component), (applyToComponentBoundsLoop rect n c).2.1.length ≤ n := by
  intro n
  induction n with
  | zero => intro c; simp [applyToComponentBoundsLoop]
  | succ i ih =>
    intro c
    simp only [applyToComponentBoundsLoop]
    split
    · simp
    · simpa using Nat.succ_le_succ (ih _)

/-- C4: `applyToComponentBounds` always terminates with at most four
resolve-and-set iterations, and on the self-referential rectangle whose
right edge is `right + 1` — which never reaches a fixed point from any
starting bounds — it stops after exactly the four-iteration cap with the
recursive-reference flag raised. -/
theorem apply_terminates_within_cap :
    (∀ (rect : RelativeRectangle) (c : Component),
      (applyToComponentBounds rect c).2.1.length ≤ 4)
    ∧ (∀ c : Component,
      (applyToComponentBounds cyclicRightRectangle c).2.2 = true
      ∧ (applyToComponentBounds cyclicRightRectangle c).2.1.length = 4) :=
  ⟨fun rect c => applyLoop_length_le rect 4 c, fun c => cyclicLoop_flags 4 c⟩

theorem applyLoop_trace_chain (rect : RelativeRectangle) :
    ∀ (n : Nat) (c : Component),
      List.Chain' (fun a b => a ≠ b) (c.bounds :: (applyToComponentBoundsLoop rect n c).2.1) := by
  intro n
  induction n with
  | zero => intro c; simp [applyToComponentBoundsLoop]
  | succ i ih =>
    intro c
    simp only [applyToComponentBoundsLoop]
    split
    · simp
    · rename_i hne
      rw [List.chain'_cons]
      have h := ih (Component.setBounds
        ((rect.resolveWith (ComponentScope c)).getSmallestIntegerContainer) c)
      exact ⟨fun hEq => hne hEq.symm, h⟩

/-- C5: if the freshly resolved integer bounds equal the owner's current
bounds, `applyToComponentBounds` returns at once, calling `setBounds` on
nothing and leaving the owner unchanged; and every bounds value it ever
passes to `setBounds` differs from the owner's bounds at the moment of that
call. -/
theorem apply_stops_at_fixed_point (rect : RelativeRectangle) (c : Component) :
    ((rect.resolveWith (ComponentScope c)).getSmallestIntegerContainer = c.bounds →
      applyToComponentBounds rect c = (c, [], false))
    ∧ List.Chain' (fun a b => a ≠ b) (c.bounds :: (applyToComponentBounds rect c).2.1) := by
  constructor
  · intro hfix
    show applyToComponentBoundsLoop rect (3 + 1) c = (c, [], false)
    simp only [applyToComponentBoundsLoop]
    rw [if_pos hfix]
  · exact applyLoop_trace_chain rect 4 c

/-- C5 witness. -/
theorem apply_stops_at_fixed_point_witness :
    applyToComponentBounds constantRectangle fixedComponent = (fixedComponent, [], false) := by
  apply (apply_stops_at_fixed_point constantRectangle fixedComponent).1
  have h1 : RelativeCoordinate.resolve (ComponentScope fixedComponent) constantRectangle.left
      = 1 := resolve_constant _ 1
  have h2 : RelativeCoordinate.resolve (ComponentScope fixedComponent) constantRectangle.right
      = 5 := resolve_constant _ 5
  have h3 : RelativeCoordinate.resolve (ComponentScope fixedComponent) constantRectangle.top
      = 2 := resolve_constant _ 2
  have h4 : RelativeCoordinate.resolve (ComponentScope fixedComponent) constantRectangle.bottom
      = 7 := resolve_constant _ 7
  simp only [RelativeRectangle.resolveWith, h1, h2, h3, h4]
  have e : RectangleF.getSmallestIntegerContainer ⟨1, 2, max 0 (5 - 1), max 0 (7 - 2)⟩
      = RectangleF.getSmallestIntegerContainer ⟨((1 : ℤ) : ℚ), ((2 : ℤ) : ℚ), ((4 : ℤ) : ℚ), ((5 : ℤ) : ℚ)⟩ := by
    norm_num
  rw [e, getSmallestIntegerContainer_int]
  rfl

theorem applyLoop_preserves_positioner (rect : RelativeRectangle) :
    ∀ (n : Nat) (c : Component),
      (applyToComponentBoundsLoop rect n c).1.positioner = c.positioner := by
  intro n
  induction n with
  | zero => intro c; rfl
  | succ i ih =>
    intro c
    simp only [applyToComponentBoundsLoop]
    split
    · rfl
    · exact ih _

/-- C6: the positioner lifecycle of `applyToComponent`: a dynamic rectangle
leaves the owner untouched when its positioner already holds a structurally
equal rectangle, and otherwise installs a positioner holding a snapshot of
the rectangle and applies it once; a non-dynamic rectangle clears the
positioner and sets the bounds from one null-scope resolution. -/
theorem applyToComponent_lifecycle (rect : RelativeRectangle) (c : Component) :
    (∀ held, rect.isDynamic = true → c.positioner = some held →
      isUsingRectangle held rect = true → rect.applyToComponent c = c)
    ∧ (rect.isDynamic = true →
      (c.positioner = none
        ∨ ∃ held, c.positioner = some held ∧ isUsingRectangle held rect = false) →
      rect.applyToComponent c
          = (applyToComponentBounds rect (c.setPositioner (some rect))).1
        ∧ (rect.applyToComponent c).positioner = some rect)
    ∧ (rect.isDynamic = false →
      rect.applyToComponent c
          = (c.setPositioner none).setBounds ((rect.resolve none).getSmallestIntegerContainer)
        ∧ (rect.applyToComponent c).positioner = none) := by
  refine ⟨?_, ?_, ?_⟩
  · intro held hdyn hpos huse
    simp [RelativeRectangle.applyToComponent, hdyn, hpos, huse]
  · intro hdyn hrep
    have hmain : rect.applyToComponent c
        = (applyToComponentBounds rect (c.setPositioner (some rect))).1 := by
      rcases hrep with hnone | ⟨held, hpos, huse⟩
      · simp [RelativeRectangle.applyToComponent, hdyn, hnone]
      · simp [RelativeRectangle.applyToComponent, hdyn, hpos, huse]
    refine ⟨hmain, ?_⟩
    rw [hmain]
    show (applyToComponentBoundsLoop rect 4 (c.setPositioner (some rect))).1.positioner
      = some rect
    rw [applyLoop_preserves_positioner rect 4 _]
    rfl
  · intro hdyn
    refine ⟨by simp [RelativeRectangle.applyToComponent, hdyn], ?_⟩
    simp [RelativeRectangle.applyToComponent, hdyn, Component.setBounds,
      Component.setPositioner]

/-- C6 witness. -/
theorem applyToComponent_lifecycle_witness :
    dynamicRectangle.applyToComponent heldComponent = heldComponent
    ∧ dynamicRectangle.applyToComponent emptyComponent
        = (applyToComponentBounds dynamicRectangle
            (emptyComponent.setPositioner (some dynamicRectangle))).1
    ∧ constantRectangle.applyToComponent emptyComponent
        = (emptyComponent.setPositioner none).setBounds
            ((constantRectangle.resolve none).getSmallestIntegerContainer) :=
  ⟨(applyToComponent_lifecycle dynamicRectangle heldComponent).1 dynamicRectangle
      (by decide) rfl (by decide),
   ((applyToComponent_lifecycle dynamicRectangle emptyComponent).2.1 (by decide) (Or.inl rfl)).1,
   ((applyToComponent_lifecycle constantRectangle emptyComponent).2.2 (by decide)).1⟩

theorem string_mk_data (s : String) : String.mk s.data = s := rfl

theorem string_append_data (s u : String) : (s ++ u).data = s.data ++ u.data := rfl

theorem isIdentStart_isIdentChar {c : Char} (h : isIdentStart c = true) :
    isIdentChar c = true := by
  simp [isIdentChar, h]

theorem identStart_facts {c : Char} (h : isIdentStart c = true) :
    isSpaceChar c = false ∧ isDigitChar c = false ∧ ¬(c = '(') ∧ ¬(c = '-') := by
  have h' := h
  simp only [isIdentStart, Bool.or_eq_true, Bool.and_eq_true, decide_eq_true_eq] at h'
  refine ⟨?_, ?_, ?_, ?_⟩
  · simp only [isSpaceChar, Bool.or_eq_false_iff, decide_eq_false_iff_not]
    omega
  · simp only [isDigitChar, Bool.and_eq_false_iff, decide_eq_false_iff_not]
    omega
  · intro hEq
    subst hEq
    exact absurd h (by decide)
  · intro hEq
    subst hEq
    exact absurd h (by decide)

theorem digit_facts {c : Char} (h : isDigitChar c = true) :
    isSpaceChar c = false ∧ ¬(c = '(') ∧ ¬(c = '-') := by
  have h' := h
  simp only [isDigitChar, Bool.and_eq_true, decide_eq_true_eq] at h'
  refine ⟨?_, ?_, ?_⟩
  · simp only [isSpaceChar, Bool.or_eq_false_iff, decide_eq_false_iff_not]
    omega
  · intro hEq
    subst hEq
    exact absurd h (by decide)
  · intro hEq
    subst hEq
    exact absurd h (by decide)

theorem factorStop_facts {c : Char} {t : List Char} (h : isFactorStop (c :: t) = true) :
    isSpaceChar c = false ∧ isIdentChar c = false ∧ isDigitChar c = false
      ∧ ¬(c = '.') ∧ ¬(c = '(') := by
  simp only [isFactorStop, Bool.or_eq_true, decide_eq_true_eq] at h
  rcases h with ((((h | h) | h) | h) | h) | h <;> subst h <;>
    exact ⟨by decide, by decide, by decide, by decide, by decide⟩

theorem termStop_facts {c : Char} {t : List Char} (h : isTermStop (c :: t) = true) :
    isSpaceChar c = false ∧ ¬(c = '*') ∧ ¬(c = '/') := by
  simp only [isTermStop, Bool.or_eq_true, decide_eq_true_eq] at h
  rcases h with ((h | h) | h) | h <;> subst h <;> exact ⟨by decide, by decide, by decide⟩

theorem exprStop_facts {c : Char} {t : List Char} (h : isExprStop (c :: t) = true) :
    isSpaceChar c = false ∧ ¬(c = '+') ∧ ¬(c = '-') := by
  simp only [isExprStop, Bool.or_eq_true, decide_eq_true_eq] at h
  rcases h with h | h <;> subst h <;> exact ⟨by decide, by decide, by decide⟩

theorem isTermStop_isFactorStop {cs : List Char} (h : isTermStop cs = true) :
    isFactorStop cs = true := by
  cases cs with
  | nil => rfl
  | cons c t =>
    simp only [isTermStop, Bool.or_eq_true, decide_eq_true_eq] at h
    rcases h with ((h | h) | h) | h <;> subst h <;> simp [isFactorStop]
  
theorem isExprStop_isTermStop {cs : List Char} (h : isExprStop cs = true) :
    isTermStop cs = true := by
  cases cs with
  | nil => rfl
  | cons c t =>
    simp only [isExprStop, Bool.or_eq_true, decide_eq_true_eq] at h
    rcases h with h | h <;> subst h <;> simp [isTermStop]

theorem skipWhitespace_cons_not {c : Char} {t : List Char} (h : isSpaceChar c = false) :
    skipWhitespace (c :: t) = c :: t := by
  simp [skipWhitespace, List.dropWhile_cons, h]

theorem skipWhitespace_append (ws cs : List Char) (h : ∀ x ∈ ws, isSpaceChar x = true) :
    skipWhitespace (ws ++ cs) = skipWhitespace cs := by
  induction ws with
  | nil => rfl
  | cons w ws ih =>
    show skipWhitespace (w :: (ws ++ cs)) = skipWhitespace cs
    simp only [skipWhitespace, List.dropWhile_cons, h w (by simp)]
    exact ih (fun x hx => h x (by simp [hx]))

theorem takeWhile_append_all (p : Char → Bool) :
    ∀ (xs ys : List Char), (∀ x ∈ xs, p x = true) →
      (∀ y t, ys = y :: t → p y = false) →
      (xs ++ ys).takeWhile p = xs ∧ (xs ++ ys).dropWhile p = ys := by
  intro xs
  induction xs with
  | nil =>
    intro ys hall hy
    cases ys with
    | nil => exact ⟨rfl, rfl⟩
    | cons y t => simp [List.takeWhile_cons, List.dropWhile_cons, hy y t rfl]
  | cons x xs ih =>
    intro ys hall hy
    have hx : p x = true := hall x (by simp)
    have hrec := ih ys (fun a ha => hall a (by simp [ha])) hy
    simp [List.takeWhile_cons, List.dropWhile_cons, hx, hrec.1, hrec.2]

theorem digitChar_lt10 (d : Nat) (h : d < 10) :
    isDigitChar (digitChar d) = true ∧ (digitChar d).toNat - 48 = d := by
  interval_cases d <;> exact ⟨by decide, by decide⟩

theorem natCharsAux_spec : ∀ (fuel n : Nat), n < fuel →
    natCharsAux fuel n ≠ [] ∧ (∀ c ∈ natCharsAux fuel n, isDigitChar c = true) := by
  intro fuel
  induction fuel with
  | zero => intro n h; omega
  | succ f ih =>
    intro n h
    simp only [natCharsAux]
    by_cases h10 : n < 10
    · rw [if_pos h10]
      refine ⟨by simp, ?_⟩
      intro c hc
      simp only [List.mem_singleton] at hc
      subst hc
      exact (digitChar_lt10 n h10).1
    · rw [if_neg h10]
      have hdiv : n / 10 < f := by
        have := Nat.div_lt_self (show 0 < n by omega) (show 1 < 10 by omega)
        omega
      obtain ⟨hne, hall⟩ := ih (n / 10) hdiv
      refine ⟨by simp, ?_⟩
      intro c hc
      rcases List.mem_append.1 hc with hc | hc
      · exact hall c hc
      · simp only [List.mem_singleton] at hc
        subst hc
        exact (digitChar_lt10 (n % 10) (Nat.mod_lt _ (by omega))).1

theorem natCharsAux_foldl : ∀ (fuel n : Nat), n < fuel → ∀ (a : Nat),
    List.foldl (fun acc c => 10 * acc + (c.toNat - 48)) a (natCharsAux fuel n)
      = a * 10 ^ (natCharsAux fuel n).length + n := by
  intro fuel
  induction fuel with
  | zero => intro n h; omega
  | succ f ih =>
    intro n h a
    simp only [natCharsAux]
    by_cases h10 : n < 10
    · rw [if_pos h10]
      simp [List.foldl, (digitChar_lt10 n h10).2]
      omega
    · rw [if_neg h10]
      have hdiv : n / 10 < f := by
        have := Nat.div_lt_self (show 0 < n by omega) (show 1 < 10 by omega)
        omega
      rw [List.foldl_append, ih (n / 10) hdiv a]
      have hmod := (digitChar_lt10 (n % 10) (Nat.mod_lt _ (by omega))).2
      simp only [List.foldl, hmod, List.length_append, List.length_singleton]
      have hdm : 10 * (n / 10) + n % 10 = n := by omega
      calc 10 * (a * 10 ^ (natCharsAux f (n / 10)).length + n / 10) + n % 10
          = a * (10 ^ (natCharsAux f (n / 10)).length * 10)
              + (10 * (n / 10) + n % 10) := by ring
        _ = a * 10 ^ ((natCharsAux f (n / 10)).length + 1) + n := by
            rw [pow_succ, hdm]

theorem natFromDigits_natChars (n : Nat) : natFromDigits (natChars n) = n := by
  have := natCharsAux_foldl (n + 1) n (by omega) 0
  simpa [natFromDigits, natChars] using this

theorem natChars_spec (n : Nat) :
    natChars n ≠ [] ∧ (∀ c ∈ natChars n, isDigitChar c = true) :=
  natCharsAux_spec (n + 1) n (by omega)

theorem parseNumber_spec (n : Nat) (rest : List Char) (h : isFactorStop rest = true) :
    ∀ c cs', natChars n = c :: cs' →
      parseNumber c (cs' ++ rest) = (.constant (n : ℚ), rest) := by
  intro c cs' hnc
  have hall : ∀ x ∈ natChars n, isDigitChar x = true := (natChars_spec n).2
  have hrest : ∀ y t, rest = y :: t → isDigitChar y = false := by
    intro y t hy
    subst hy
    exact (factorStop_facts h).2.2.1
  have htake := takeWhile_append_all isDigitChar (natChars n) rest hall hrest
  have hin : c :: (cs' ++ rest) = natChars n ++ rest := by rw [hnc]; rfl
  unfold parseNumber
  rw [hin, htake.1, htake.2]
  simp only [natFromDigits_natChars]
  cases rest with
  | nil => rfl
  | cons r rs =>
    have hdot : ¬(r = '.') := (factorStop_facts h).2.2.2.1
    simp [hdot]

theorem identOk_spec (s : String) (hs : identOk s = true) :
    (∃ c cs', s.data = c :: cs' ∧ isIdentStart c = true)
    ∧ ∀ x ∈ s.data, isIdentChar x = true := by
  unfold identOk at hs
  cases hd : s.data with
  | nil => rw [hd] at hs; exact absurd hs (by decide)
  | cons c cs =>
    rw [hd] at hs
    simp only [Bool.and_eq_true, List.all_eq_true] at hs
    obtain ⟨h1, h2⟩ := hs
    refine ⟨⟨c, cs, rfl, h1⟩, ?_⟩
    intro x hx
    rcases List.mem_cons.1 hx with hx | hx
    · subst hx; exact isIdentStart_isIdentChar h1
    · exact h2 x hx

theorem readIdent_spec (s : String) (hs : identOk s = true) (rest : List Char)
    (hrest : ∀ y t, rest = y :: t → isIdentChar y = false) :
    (s.data ++ rest).takeWhile isIdentChar = s.data
    ∧ (s.data ++ rest).dropWhile isIdentChar = rest :=
  takeWhile_append_all isIdentChar s.data rest (identOk_spec s hs).2 hrest

theorem pTermLoop_stop (acc : Expression) (rest : List Char) (h : isTermStop rest = true) :
    ∀ fuel, 1 ≤ fuel → parseRun fuel (.pTermLoop acc) rest = some (acc, rest) := by
  intro fuel hf
  obtain ⟨f, rfl⟩ : ∃ f, fuel = f + 1 := ⟨fuel - 1, by omega⟩
  cases rest with
  | nil => simp [parseRun, skipWhitespace]
  | cons c t =>
    obtain ⟨hsp, hstar, hslash⟩ := termStop_facts h
    simp only [parseRun, skipWhitespace_cons_not hsp]
    simp [hstar, hslash]

theorem pExpressionLoop_stop (acc : Expression) (rest : List Char)
    (h : isExprStop rest = true) :
    ∀ fuel, 1 ≤ fuel → parseRun fuel (.pExpressionLoop acc) rest = some (acc, rest) := by
  intro fuel hf
  obtain ⟨f, rfl⟩ : ∃ f, fuel = f + 1 := ⟨fuel - 1, by omega⟩
  cases rest with
  | nil => simp [parseRun, skipWhitespace]
  | cons c t =>
    obtain ⟨hsp, hplus, hminus⟩ := exprStop_facts h
    simp only [parseRun, skipWhitespace_cons_not hsp]
    simp [hplus, hminus]

theorem parseRun_pFactor_ws (ws cs : List Char) (fuel : Nat)
    (h : ∀ x ∈ ws, isSpaceChar x = true) :
    parseRun fuel .pFactor (ws ++ cs) = parseRun fuel .pFactor cs := by
  cases fuel with
  | zero => rfl
  | succ f => simp only [parseRun, skipWhitespace_append ws cs h]

theorem parseRun_pTerm_ws (ws cs : List Char) (fuel : Nat)
    (h : ∀ x ∈ ws, isSpaceChar x = true) :
    parseRun fuel .pTerm (ws ++ cs) = parseRun fuel .pTerm cs := by
  cases fuel with
  | zero => rfl
  | succ f => simp only [parseRun, parseRun_pFactor_ws ws cs f h]

theorem parseRun_pExpression_ws (ws cs : List Char) (fuel : Nat)
    (h : ∀ x ∈ ws, isSpaceChar x = true) :
    parseRun fuel .pExpression (ws ++ cs) = parseRun fuel .pExpression cs := by
  cases fuel with
  | zero => rfl
  | succ f => simp only [parseRun, parseRun_pTerm_ws ws cs f h]

theorem pTerm_of_pFactor (e : Expression)
    (H : ∀ rest fuel, isFactorStop rest = true → parseNeed e ≤ fuel →
      parseRun fuel .pFactor (printExpression e ++ rest) = some (e, rest)) :
    ∀ rest fuel, isTermStop rest = true → parseNeed e + 2 ≤ fuel →
      parseRun fuel .pTerm (printExpression e ++ rest) = some (e, rest) := by
  intro rest fuel hstop hfuel
  obtain ⟨f, rfl⟩ : ∃ f, fuel = f + 1 := ⟨fuel - 1, by omega⟩
  simp only [parseRun]
  rw [H rest f (isTermStop_isFactorStop hstop) (by omega)]
  exact pTermLoop_stop e rest hstop f (by omega)

theorem pExpression_of_pFactor (e : Expression)
    (H : ∀ rest fuel, isFactorStop rest = true → parseNeed e ≤ fuel →
      parseRun fuel .pFactor (printExpression e ++ rest) = some (e, rest)) :
    ∀ rest fuel, isExprStop rest = true → parseNeed e + 4 ≤ fuel →
      parseRun fuel .pExpression (printExpression e ++ rest) = some (e, rest) := by
  intro rest fuel hstop hfuel
  obtain ⟨f, rfl⟩ : ∃ f, fuel = f + 1 := ⟨fuel - 1, by omega⟩
  simp only [parseRun]
  rw [pTerm_of_pFactor e H rest f (isExprStop_isTermStop hstop) (by omega)]
  exact pExpressionLoop_stop e rest hstop f (by omega)

theorem argsTail_exprStop (l : ExprList) (rest : List Char) :
    isExprStop (printArgsTail l ++ ')' :: rest) = true := by
  cases l with
  | nil => simp [printArgsTail, isExprStop]
  | cons a xs => simp [printArgsTail, isExprStop]

theorem ExprList.append_nil : ∀ (xs : ExprList), xs.append .nil = xs
  | .nil => rfl
  | .cons x xs => by simp [ExprList.append, ExprList.append_nil xs]

theorem ExprList.append_assoc :
    ∀ (xs ys zs : ExprList), (xs.append ys).append zs = xs.append (ys.append zs)
  | .nil, _, _ => rfl
  | .cons x xs, ys, zs => by simp [ExprList.append, ExprList.append_assoc xs ys zs]

theorem ExprList.concat_append (xs : ExprList) (x : Expression) (ys : ExprList) :
    (xs.concat x).append ys = xs.append (.cons x ys) := by
  simp [ExprList.concat, ExprList.append_assoc, ExprList.append]

theorem constant_case (v : ℚ) (hp : printable (.constant v) = true) :
    ∀ rest fuel, isFactorStop rest = true → 1 ≤ fuel →
      parseRun fuel .pFactor (printExpression (.constant v) ++ rest)
        = some (.constant v, rest) := by
  intro rest fuel hstop hfuel
  obtain ⟨f, rfl⟩ : ∃ f, fuel = f + 1 := ⟨fuel - 1, by omega⟩
  simp only [printable, Bool.and_eq_true, beq_iff_eq, decide_eq_true_eq] at hp
  obtain ⟨hden, hnum⟩ := hp
  set n := v.num.toNat with hn
  have hv : (n : ℚ) = v := by
    have h2 : ((v.num.toNat : ℤ) : ℚ) = ((v.num : ℤ) : ℚ) := by
      rw [Int.toNat_of_nonneg hnum]
    have h3 : v = ((v.num : ℤ) : ℚ) := by
      conv_lhs => rw [← Rat.num_div_den v]
      rw [hden]
      norm_num
    rw [hn, h3, ← h2]
    exact_mod_cast rfl
  obtain ⟨hne, hall⟩ := natChars_spec n
  obtain ⟨c, cs', hnc⟩ : ∃ c cs', natChars n = c :: cs' := by
    cases h : natChars n with
    | nil => exact absurd h hne
    | cons c cs => exact ⟨c, cs, rfl⟩
  have hcdig : isDigitChar c = true := hall c (by rw [hnc]; simp)
  have hfacts := digit_facts hcdig
  show parseRun (f + 1) .pFactor (natChars n ++ rest) = some (.constant v, rest)
  rw [hnc]
  simp only [List.cons_append, parseRun]
  rw [skipWhitespace_cons_not hfacts.1]
  simp only [hfacts.2.1, hfacts.2.2, hcdig, if_neg, if_false, if_true, ite_false, ite_true]
  rw [parseNumber_spec n rest hstop c cs' hnc, hv]

theorem symbol_case (s : String) (hs : identOk s = true) :
    ∀ rest fuel, isFactorStop rest = true → 1 ≤ fuel →
      parseRun fuel .pFactor (printExpression (.symbol s) ++ rest)
        = some (.symbol s, rest) := by
  intro rest fuel hstop hfuel
  obtain ⟨f, rfl⟩ : ∃ f, fuel = f + 1 := ⟨fuel - 1, by omega⟩
  obtain ⟨⟨c, cs, hca, hcstart⟩, hall⟩ := identOk_spec s hs
  have hfacts := identStart_facts hcstart
  have hrest : ∀ y t, rest = y :: t → isIdentChar y = false := by
    intro y t hy
    subst hy
    exact (factorStop_facts hstop).2.1
  have hread := readIdent_spec s hs rest hrest
  show parseRun (f + 1) .pFactor (s.data ++ rest) = some (.symbol s, rest)
  rw [hca]
  simp only [List.cons_append, parseRun]
  rw [skipWhitespace_cons_not hfacts.1]
  simp only [hfacts.2.1, hfacts.2.2.1, hfacts.2.2.2, hcstart, if_neg, ite_true, ite_false,
    if_false, if_true]
  rw [← List.cons_append, ← hca, hread.1, hread.2, string_mk_data]
  cases rest with
  | nil => rfl
  | cons r rs =>
    have h1 : ¬(r = '.') := (factorStop_facts hstop).2.2.2.1
    have h2 : ¬(r = '(') := (factorStop_facts hstop).2.2.2.2
    simp [h1, h2]

theorem dotted_case (a b : String) (ha : identOk a = true) (hb : identOk b = true) :
    ∀ rest fuel, isFactorStop rest = true → 1 ≤ fuel →
      parseRun fuel .pFactor ((a.data ++ '.' :: b.data) ++ rest)
        = some (.operator "." (.cons (.symbol a) (.cons (.symbol b) .nil)), rest) := by
  intro rest fuel hstop hfuel
  obtain ⟨f, rfl⟩ : ∃ f, fuel = f + 1 := ⟨fuel - 1, by omega⟩
  obtain ⟨⟨c, cs, hca, hcstart⟩, halla⟩ := identOk_spec a ha
  obtain ⟨⟨d, ds, hdb, hdstart⟩, hallb⟩ := identOk_spec b hb
  have hfacts := identStart_facts hcstart
  have hrest : ∀ y t, rest = y :: t → isIdentChar y = false := by
    intro y t hy
    subst hy
    exact (factorStop_facts hstop).2.1
  have hta := takeWhile_append_all isIdentChar a.data ('.' :: (b.data ++ rest)) halla
    (by intro y t hy; injection hy with h1 _; subst h1; decide)
  have htb := takeWhile_append_all isIdentChar b.data rest hallb hrest
  have hmka : String.mk (c :: cs) = a := by rw [← hca]
  have hmkb : String.mk (d :: ds) = b := by rw [← hdb]
  rw [hca, hdb] at hta
  rw [hdb] at htb
  simp only [List.cons_append, List.append_assoc] at hta htb
  show parseRun (f + 1) .pFactor (a.data ++ '.' :: b.data ++ rest) = _
  rw [hca, hdb]
  simp only [List.cons_append, List.append_assoc, parseRun]
  rw [skipWhitespace_cons_not hfacts.1]
  simp only [if_neg hfacts.2.2.1, if_neg hfacts.2.2.2,
    if_neg (show ¬(isDigitChar c = true) from by simp [hfacts.2.1]), if_pos hcstart]
  simp only [hta.1, hta.2, hmka]
  simp only [if_pos (show ('.' : Char) = '.' from rfl), if_pos hdstart, htb.1, htb.2, hmkb]
  simp

theorem unary_case (x : Expression)
    (Hx : ∀ rest fuel, isFactorStop rest = true → parseNeed x ≤ fuel →
      parseRun fuel .pFactor (printExpression x ++ rest) = some (x, rest)) :
    ∀ rest fuel, isFactorStop rest = true → parseNeed x + 1 ≤ fuel →
      parseRun fuel .pFactor (('-' :: printExpression x) ++ rest)
        = some (.operator "-" (.cons x .nil), rest) := by
  intro rest fuel hstop hfuel
  obtain ⟨f, rfl⟩ : ∃ f, fuel = f + 1 := ⟨fuel - 1, by omega⟩
  simp only [List.cons_append, parseRun,
    skipWhitespace_cons_not (show isSpaceChar '-' = false from by decide)]
  simp only [if_neg (show ¬(('-' : Char) = '(') from by decide),
    if_pos (show ('-' : Char) = '-' from rfl)]
  rw [Hx rest f hstop (by omega)]
  simp

theorem parseRun_pFactor_lparen (fuel : Nat) (cs : List Char) :
    parseRun (fuel + 1) .pFactor ('(' :: cs) =
      match parseRun fuel .pExpression cs with
      | some (e, cs2) =>
        match skipWhitespace cs2 with
        | c2 :: cs3 => if c2 = ')' then some (e, cs3) else none
        | [] => none
      | none => none := by
  simp [parseRun, skipWhitespace_cons_not (show isSpaceChar '(' = false from by decide)]

theorem parseRun_pExpression_step (fuel : Nat) (cs : List Char) :
    parseRun (fuel + 1) .pExpression cs =
      match parseRun fuel .pTerm cs with
      | some (t, cs1) => parseRun fuel (.pExpressionLoop t) cs1
      | none => none := by
  simp only [parseRun]

theorem parseRun_pTerm_step (fuel : Nat) (cs : List Char) :
    parseRun (fuel + 1) .pTerm cs =
      match parseRun fuel .pFactor cs with
      | some (t, cs1) => parseRun fuel (.pTermLoop t) cs1
      | none => none := by
  simp only [parseRun]

theorem parseRun_pExpressionLoop_plus (fuel : Nat) (acc : Expression) (cs : List Char) :
    parseRun (fuel + 1) (.pExpressionLoop acc) ('+' :: cs) =
      match parseRun fuel .pTerm cs with
      | some (t, cs2) =>
        parseRun fuel (.pExpressionLoop (.operator "+" (.cons acc (.cons t .nil)))) cs2
      | none => none := by
  simp [parseRun, skipWhitespace_cons_not (show isSpaceChar '+' = false from by decide)]

theorem parseRun_pExpressionLoop_minus (fuel : Nat) (acc : Expression) (cs : List Char) :
    parseRun (fuel + 1) (.pExpressionLoop acc) ('-' :: cs) =
      match parseRun fuel .pTerm cs with
      | some (t, cs2) =>
        parseRun fuel (.pExpressionLoop (.operator "-" (.cons acc (.cons t .nil)))) cs2
      | none => none := by
  simp [parseRun, skipWhitespace_cons_not (show isSpaceChar '-' = false from by decide)]

theorem parseRun_pTermLoop_star (fuel : Nat) (acc : Expression) (cs : List Char) :
    parseRun (fuel + 1) (.pTermLoop acc) ('*' :: cs) =
      match parseRun fuel .pFactor cs with
      | some (t, cs2) =>
        parseRun fuel (.pTermLoop (.operator "*" (.cons acc (.cons t .nil)))) cs2
      | none => none := by
  simp [parseRun, skipWhitespace_cons_not (show isSpaceChar '*' = false from by decide)]

theorem parseRun_pTermLoop_slash (fuel : Nat) (acc : Expression) (cs : List Char) :
    parseRun (fuel + 1) (.pTermLoop acc) ('/' :: cs) =
      match parseRun fuel .pFactor cs with
      | some (t, cs2) =>
        parseRun fuel (.pTermLoop (.operator "/" (.cons acc (.cons t .nil)))) cs2
      | none => none := by
  simp [parseRun, skipWhitespace_cons_not (show isSpaceChar '/' = false from by decide)]

theorem binary_pm_case (x y : Expression) (opc : Char) (ops : String)
    (hop : (opc = '+' ∧ ops = "+") ∨ (opc = '-' ∧ ops = "-"))
    (Hx : ∀ rest fuel, isFactorStop rest = true → parseNeed x ≤ fuel →
      parseRun fuel .pFactor (printExpression x ++ rest) = some (x, rest))
    (Hy : ∀ rest fuel, isFactorStop rest = true → parseNeed y ≤ fuel →
      parseRun fuel .pFactor (printExpression y ++ rest) = some (y, rest)) :
    ∀ rest fuel, isFactorStop rest = true → parseNeed x + parseNeed y + 8 ≤ fuel →
      parseRun fuel .pFactor
          (('(' :: (printExpression x ++ opc :: printExpression y ++ [')'])) ++ rest)
        = some (.operator ops (.cons x (.cons y .nil)), rest) := by
  intro rest fuel hstop hfuel
  obtain ⟨f2, rfl⟩ : ∃ f2, fuel = f2 + 1 + 1 + 1 := ⟨fuel - 3, by omega⟩
  have hterm2 := pTerm_of_pFactor y Hy (')' :: rest) f2
    (show isTermStop (')' :: rest) = true from by simp [isTermStop]) (by omega)
  have hloopstop := pExpressionLoop_stop (.operator ops (.cons x (.cons y .nil))) (')' :: rest)
    (by simp [isExprStop]) f2 (by omega)
  rcases hop with ⟨rfl, rfl⟩ | ⟨rfl, rfl⟩
  · have hterm1 := pTerm_of_pFactor x Hx ('+' :: (printExpression y ++ ')' :: rest)) (f2 + 1)
      (show isTermStop _ = true from by simp [isTermStop]) (by omega)
    simp only [List.cons_append, List.append_assoc, List.singleton_append, List.nil_append]
    rw [parseRun_pFactor_lparen (f2 + 1 + 1), parseRun_pExpression_step (f2 + 1)]
    rw [hterm1]
    simp only [parseRun_pExpressionLoop_plus, hterm2, hloopstop,
      skipWhitespace_cons_not (show isSpaceChar ')' = false from by decide),
      if_pos (show (')' : Char) = ')' from rfl)]
    simp
  · have hterm1 := pTerm_of_pFactor x Hx ('-' :: (printExpression y ++ ')' :: rest)) (f2 + 1)
      (show isTermStop _ = true from by simp [isTermStop]) (by omega)
    simp only [List.cons_append, List.append_assoc, List.singleton_append, List.nil_append]
    rw [parseRun_pFactor_lparen (f2 + 1 + 1), parseRun_pExpression_step (f2 + 1)]
    rw [hterm1]
    simp only [parseRun_pExpressionLoop_minus, hterm2, hloopstop,
      skipWhitespace_cons_not (show isSpaceChar ')' = false from by decide),
      if_pos (show (')' : Char) = ')' from rfl)]
    simp

theorem binary_td_case (x y : Expression) (opc : Char) (ops : String)
    (hop : (opc = '*' ∧ ops = "*") ∨ (opc = '/' ∧ ops = "/"))
    (Hx : ∀ rest fuel, isFactorStop rest = true → parseNeed x ≤ fuel →
      parseRun fuel .pFactor (printExpression x ++ rest) = some (x, rest))
    (Hy : ∀ rest fuel, isFactorStop rest = true → parseNeed y ≤ fuel →
      parseRun fuel .pFactor (printExpression y ++ rest) = some (y, rest)) :
    ∀ rest fuel, isFactorStop rest = true → parseNeed x + parseNeed y + 8 ≤ fuel →
      parseRun fuel .pFactor
          (('(' :: (printExpression x ++ opc :: printExpression y ++ [')'])) ++ rest)
        = some (.operator ops (.cons x (.cons y .nil)), rest) := by
  intro rest fuel hstop hfuel
  obtain ⟨f2, rfl⟩ : ∃ f2, fuel = f2 + 1 + 1 + 1 + 1 := ⟨fuel - 4, by omega⟩
  have hfac1 := Hx (opc :: (printExpression y ++ ')' :: rest)) (f2 + 1)
    (show isFactorStop _ = true from by
      rcases hop with ⟨rfl, _⟩ | ⟨rfl, _⟩ <;> simp [isFactorStop]) (by omega)
  have hfac2 := Hy (')' :: rest) f2
    (show isFactorStop (')' :: rest) = true from by simp [isFactorStop]) (by omega)
  have htermstop := pTermLoop_stop (.operator ops (.cons x (.cons y .nil))) (')' :: rest)
    (show isTermStop (')' :: rest) = true from by simp [isTermStop]) f2 (by omega)
  have hloopstop := pExpressionLoop_stop (.operator ops (.cons x (.cons y .nil))) (')' :: rest)
    (by simp [isExprStop]) (f2 + 1 + 1) (by omega)
  rcases hop with ⟨rfl, rfl⟩ | ⟨rfl, rfl⟩
  · simp only [List.cons_append, List.append_assoc, List.singleton_append, List.nil_append]
    rw [parseRun_pFactor_lparen (f2 + 1 + 1 + 1), parseRun_pExpression_step (f2 + 1 + 1),
      parseRun_pTerm_step (f2 + 1)]
    rw [hfac1]
    simp only [parseRun_pTermLoop_star, hfac2, htermstop, hloopstop,
      skipWhitespace_cons_not (show isSpaceChar ')' = false from by decide),
      if_pos (show (')' : Char) = ')' from rfl)]
    simp
  · simp only [List.cons_append, List.append_assoc, List.singleton_append, List.nil_append]
    rw [parseRun_pFactor_lparen (f2 + 1 + 1 + 1), parseRun_pExpression_step (f2 + 1 + 1),
      parseRun_pTerm_step (f2 + 1)]
    rw [hfac1]
    simp only [parseRun_pTermLoop_slash, hfac2, htermstop, hloopstop,
      skipWhitespace_cons_not (show isSpaceChar ')' = false from by decide),
      if_pos (show (')' : Char) = ')' from rfl)]
    simp

theorem parseRun_pArgs_step (fuel : Nat) (name : String) (cs : List Char) :
    parseRun (fuel + 1) (.pArgs name) cs =
      match parseRun fuel .pExpression cs with
      | some (e, cs1) => parseRun fuel (.pArgsLoop name (.cons e .nil)) cs1
      | none => none := by
  simp only [parseRun]

theorem parseRun_pArgsLoop_comma (fuel : Nat) (name : String) (acc : ExprList)
    (cs : List Char) :
    parseRun (fuel + 1) (.pArgsLoop name acc) (',' :: cs) =
      match parseRun fuel .pExpression cs with
      | some (e, cs2) => parseRun fuel (.pArgsLoop name (acc.concat e)) cs2
      | none => none := by
  simp [parseRun, skipWhitespace_cons_not (show isSpaceChar ',' = false from by decide)]

theorem parseRun_pArgsLoop_rparen (fuel : Nat) (name : String) (acc : ExprList)
    (cs : List Char) :
    parseRun (fuel + 1) (.pArgsLoop name acc) (')' :: cs) =
      some (.functionCall name acc, cs) := by
  simp [parseRun, skipWhitespace_cons_not (show isSpaceChar ')' = false from by decide)]

theorem call_case (fname : String) (x : Expression) (xs : ExprList)
    (hf : identOk fname = true)
    (Hx : ∀ rest fuel, isFactorStop rest = true → parseNeed x ≤ fuel →
      parseRun fuel .pFactor (printExpression x ++ rest) = some (x, rest))
    (Hxs : ∀ (acc : ExprList) (rest2 : List Char) (fuel : Nat), parseNeedList xs ≤ fuel →
      parseRun fuel (.pArgsLoop fname acc) (printArgsTail xs ++ ')' :: rest2)
        = some (.functionCall fname (acc.append xs), rest2)) :
    ∀ rest fuel, isFactorStop rest = true → parseNeed x + parseNeedList xs + 8 ≤ fuel →
      parseRun fuel .pFactor
          ((fname.data ++ '(' :: (printExpression x ++ printArgsTail xs ++ [')'])) ++ rest)
        = some (.functionCall fname (.cons x xs), rest) := by
  intro rest fuel hstop hfuel
  obtain ⟨f, rfl⟩ : ∃ f, fuel = f + 1 := ⟨fuel - 1, by omega⟩
  obtain ⟨⟨c, cs, hca, hcstart⟩, halla⟩ := identOk_spec fname hf
  have hfacts := identStart_facts hcstart
  have hta := takeWhile_append_all isIdentChar fname.data
      ('(' :: (printExpression x ++ printArgsTail xs ++ ')' :: rest)) halla
      (by intro y t hy; injection hy with h1 _; subst h1; decide)
  have hmka : String.mk (c :: cs) = fname := by rw [← hca]
  rw [hca] at hta
  simp only [List.cons_append, List.append_assoc] at hta
  show parseRun (f + 1) .pFactor
      (fname.data ++ '(' :: (printExpression x ++ printArgsTail xs ++ [')']) ++ rest) = _
  rw [hca]
  simp only [List.cons_append, List.append_assoc, List.singleton_append, List.nil_append,
    parseRun]
  rw [skipWhitespace_cons_not hfacts.1]
  simp only [if_neg hfacts.2.2.1, if_neg hfacts.2.2.2,
    if_neg (show ¬(isDigitChar c = true) from by simp [hfacts.2.1]), if_pos hcstart]
  simp only [hta.1, hta.2, hmka]
  simp only [if_neg (show ¬(('(' : Char) = '.') from by decide),
    if_pos (show ('(' : Char) = '(' from rfl)]
  obtain ⟨g, rfl⟩ : ∃ g, f = g + 1 := ⟨f - 1, by omega⟩
  rw [parseRun_pArgs_step g]
  rw [pExpression_of_pFactor x Hx (printArgsTail xs ++ ')' :: rest) g
    (argsTail_exprStop xs rest) (by omega)]
  simp only [if_true]
  rw [Hxs (.cons x .nil) rest g (by omega)]
  rfl

mutual

theorem parse_printExpression :
    ∀ (e : Expression), printable e = true →
      ∀ rest fuel, isFactorStop rest = true → parseNeed e ≤ fuel →
        parseRun fuel .pFactor (printExpression e ++ rest) = some (e, rest)
  | .constant v => fun hp => constant_case v hp
  | .symbol s => fun hp => symbol_case s hp
  | .operator op args => fun hp => by
    by_cases hop : op = "."
    · subst hop
      rcases args with _ | ⟨x, _ | ⟨y, _ | ⟨z, zs⟩⟩⟩
      · exact absurd hp (by simp [printable])
      · exact absurd hp (by simp [printable])
      · rcases x with v | a | ⟨opx, argsx⟩ | ⟨fx, argsx⟩
        · exact absurd hp (by simp [printable])
        · rcases y with v | b | ⟨opy, argsy⟩ | ⟨fy, argsy⟩
          · exact absurd hp (by simp [printable])
          · simp only [printable, if_pos rfl, if_true, Bool.and_eq_true] at hp
            intro rest fuel hstop hfuel
            have hfuel1 : 1 ≤ fuel := by
              have h1 : parseNeed (.operator "." (.cons (.symbol a) (.cons (.symbol b) .nil)))
                  = 1 := by simp [parseNeed]
              omega
            have := dotted_case a b hp.1 hp.2 rest fuel hstop hfuel1
            simpa [printExpression] using this
          · exact absurd hp (by simp [printable])
          · exact absurd hp (by simp [printable])
        · exact absurd hp (by simp [printable])
        · exact absurd hp (by simp [printable])
      · exact absurd hp (by simp [printable])
    · rcases args with _ | ⟨x, _ | ⟨y, _ | ⟨z, zs⟩⟩⟩
      · exact absurd hp (by simp [printable, hop])
      · simp only [printable, if_neg hop, Bool.and_eq_true, decide_eq_true_eq] at hp
        obtain ⟨hopm, hpx⟩ := hp
        subst hopm
        intro rest fuel hstop hfuel
        have hneed : parseNeed x + 1 ≤ fuel := by
          have h1 : parseNeed (.operator "-" (.cons x .nil)) = parseNeed x + 1 := by
            simp [parseNeed]
          omega
        have := unary_case x (parse_printExpression x hpx) rest fuel hstop hneed
        simpa [printExpression] using this
      · simp only [printable, if_neg hop, Bool.and_eq_true, Bool.or_eq_true,
          decide_eq_true_eq] at hp
        obtain ⟨⟨hops, hpx⟩, hpy⟩ := hp
        intro rest fuel hstop hfuel
        have Hx := parse_printExpression x hpx
        have Hy := parse_printExpression y hpy
        have hneed : parseNeed x + parseNeed y + 8 ≤ fuel := by
          have h1 : parseNeed (.operator op (.cons x (.cons y .nil)))
              = parseNeed x + parseNeed y + 8 := by simp [parseNeed, hop]
          omega
        rcases hops with ((rfl | rfl) | rfl) | rfl
        · have := binary_pm_case x y '+' "+" (Or.inl ⟨rfl, rfl⟩) Hx Hy rest fuel hstop hneed
          simpa [printExpression] using this
        · have := binary_pm_case x y '-' "-" (Or.inr ⟨rfl, rfl⟩) Hx Hy rest fuel hstop hneed
          simpa [printExpression] using this
        · have := binary_td_case x y '*' "*" (Or.inl ⟨rfl, rfl⟩) Hx Hy rest fuel hstop hneed
          simpa [printExpression] using this
        · have := binary_td_case x y '/' "/" (Or.inr ⟨rfl, rfl⟩) Hx Hy rest fuel hstop hneed
          simpa [printExpression] using this
      · exact absurd hp (by simp [printable, hop])
  | .functionCall fname args => fun hp => by
    rcases args with _ | ⟨x, xs⟩
    · exact absurd hp (by simp [printable])
    · simp only [printable, Bool.and_eq_true] at hp
      obtain ⟨⟨hf, hpx⟩, hpxs⟩ := hp
      intro rest fuel hstop hfuel
      have hneed : parseNeed x + parseNeedList xs + 8 ≤ fuel := by
        have h1 : parseNeed (.functionCall fname (.cons x xs))
            = parseNeed x + parseNeedList xs + 8 := by simp [parseNeed]
        omega
      have := call_case fname x xs hf (parse_printExpression x hpx)
        (parse_printArgsTail xs hpxs fname) rest fuel hstop hneed
      simpa [printExpression] using this

theorem parse_printArgsTail :
    ∀ (l : ExprList), printableList l = true → ∀ (fname : String) (acc : ExprList)
      (rest2 : List Char) (fuel : Nat), parseNeedList l ≤ fuel →
      parseRun fuel (.pArgsLoop fname acc) (printArgsTail l ++ ')' :: rest2)
        = some (.functionCall fname (acc.append l), rest2)
  | .nil => fun _ fname acc rest2 fuel hfuel => by
    obtain ⟨f, rfl⟩ : ∃ f, fuel = f + 1 := ⟨fuel - 1, by
      have : parseNeedList .nil = 1 := rfl
      omega⟩
    simp only [printArgsTail, List.nil_append]
    rw [parseRun_pArgsLoop_rparen f, ExprList.append_nil]
  | .cons x xs => fun hp fname acc rest2 fuel hfuel => by
    simp only [printableList, Bool.and_eq_true] at hp
    obtain ⟨hpx, hpxs⟩ := hp
    have hneed : parseNeed x + parseNeedList xs + 6 ≤ fuel := by
      have h1 : parseNeedList (.cons x xs) = parseNeed x + parseNeedList xs + 6 := by
        simp [parseNeedList]
      omega
    obtain ⟨f, rfl⟩ : ∃ f, fuel = f + 1 := ⟨fuel - 1, by omega⟩
    simp only [printArgsTail, List.cons_append, List.append_assoc]
    rw [parseRun_pArgsLoop_comma f]
    rw [pExpression_of_pFactor x (parse_printExpression x hpx)
      (printArgsTail xs ++ ')' :: rest2) f (argsTail_exprStop xs rest2) (by omega)]
    simp only [if_true]
    rw [parse_printArgsTail xs hpxs fname (acc.concat x) rest2 f (by omega)]
    rw [ExprList.concat_append]

end

theorem string_data_mk (xs : List Char) : (String.mk xs).data = xs := rfl

mutual

theorem parseNeed_le_print :
    ∀ (e : Expression), printable e = true → parseNeed e ≤ 10 * (printExpression e).length
  | .constant v => by
    intro hp
    have h1 := (natChars_spec v.num.toNat).1
    have h2 : 1 ≤ (natChars v.num.toNat).length := List.length_pos.2 h1
    simp only [printExpression, parseNeed]
    omega
  | .symbol s => by
    intro hp
    obtain ⟨⟨c, cs, hca, _⟩, _⟩ := identOk_spec s hp
    simp only [printExpression, parseNeed, hca, List.length_cons]
    omega
  | .operator op args => by
    intro hp
    by_cases hop : op = "."
    · subst hop
      rcases args with _ | ⟨x, _ | ⟨y, _ | ⟨z, zs⟩⟩⟩
      · exact absurd hp (by simp [printable])
      · exact absurd hp (by simp [printable])
      · rcases x with v | a | ⟨opx, argsx⟩ | ⟨fx, argsx⟩
        · exact absurd hp (by simp [printable])
        · rcases y with v | b | ⟨opy, argsy⟩ | ⟨fy, argsy⟩
          · exact absurd hp (by simp [printable])
          · simp only [printExpression, parseNeed, if_pos rfl, if_true, List.length_append,
              List.length_cons]
            omega
          · exact absurd hp (by simp [printable])
          · exact absurd hp (by simp [printable])
        · exact absurd hp (by simp [printable])
        · exact absurd hp (by simp [printable])
      · exact absurd hp (by simp [printable])
    · rcases args with _ | ⟨x, _ | ⟨y, _ | ⟨z, zs⟩⟩⟩
      · exact absurd hp (by simp [printable, hop])
      · simp only [printable, if_neg hop, Bool.and_eq_true, decide_eq_true_eq] at hp
        obtain ⟨hopm, hpx⟩ := hp
        subst hopm
        have ihx := parseNeed_le_print x hpx
        simp only [printExpression, parseNeed, if_neg hop, List.length_cons, if_true,
          if_pos (show ("-" : String) = "-" from rfl)]
        omega
      · simp only [printable, if_neg hop, Bool.and_eq_true, Bool.or_eq_true,
          decide_eq_true_eq] at hp
        obtain ⟨⟨hops, hpx⟩, hpy⟩ := hp
        have ihx := parseNeed_le_print x hpx
        have ihy := parseNeed_le_print y hpy
        rcases hops with ((rfl | rfl) | rfl) | rfl <;>
          simp [printExpression, parseNeed, if_neg hop] <;>
          omega
      · exact absurd hp (by simp [printable, hop])
  | .functionCall fname args => by
    intro hp
    rcases args with _ | ⟨x, xs⟩
    · exact absurd hp (by simp [printable])
    · simp only [printable, Bool.and_eq_true] at hp
      obtain ⟨⟨hf, hpx⟩, hpxs⟩ := hp
      have ihx := parseNeed_le_print x hpx
      have ihxs := parseNeedList_le_print xs hpxs
      obtain ⟨⟨c, cs, hca, _⟩, _⟩ := identOk_spec fname hf
      simp only [printExpression, parseNeed, hca, List.length_append, List.length_cons,
        List.length_singleton]
      omega

theorem parseNeedList_le_print :
    ∀ (l : ExprList), printableList l = true →
      parseNeedList l ≤ 10 * (printArgsTail l).length + 1
  | .nil => by
    intro _
    simp [printArgsTail, parseNeedList]
  | .cons x xs => by
    intro hp
    simp only [printableList, Bool.and_eq_true] at hp
    obtain ⟨hpx, hpxs⟩ := hp
    have ihx := parseNeed_le_print x hpx
    have ihxs := parseNeedList_le_print xs hpxs
    simp only [printArgsTail, parseNeedList, List.length_cons, List.length_append]
    omega

end

theorem parse_printable (e : Expression) (hp : printable e = true) (rest : List Char)
    (hstop : isExprStop rest = true) :
    Expression.parse (printExpression e ++ rest) = some (e, rest) := by
  unfold Expression.parse
  apply pExpression_of_pFactor e (parse_printExpression e hp) rest _ hstop
  have h1 := parseNeed_le_print e hp
  simp only [List.length_append]
  omega

theorem parse_printable_space (e : Expression) (hp : printable e = true) (rest : List Char)
    (hstop : isExprStop rest = true) :
    Expression.parse (' ' :: (printExpression e ++ rest)) = some (e, rest) := by
  unfold Expression.parse
  rw [show (' ' :: (printExpression e ++ rest) : List Char)
      = [' '] ++ (printExpression e ++ rest) from rfl]
  rw [parseRun_pExpression_ws [' '] _ _ (by intro x hx; simp at hx; subst hx; decide)]
  apply pExpression_of_pFactor e (parse_printExpression e hp) rest _ hstop
  have h1 := parseNeed_le_print e hp
  simp only [List.length_append, List.length_cons]
  omega

theorem skipComma_comma (cs : List Char) : skipComma (',' :: cs) = cs := by
  simp [skipComma, skipWhitespace_cons_not (show isSpaceChar ',' = false from by decide)]

/-- C2: serialization writes the four coordinate expressions comma-separated
in the order left, top, right, bottom, the text constructor parses them back
into the fields in that same order, and parsing the serialization of any
printable rectangle returns that rectangle, structurally equal. -/
theorem fromString_toString (R : RelativeRectangle) (hp : printableRectangle R = true) :
    RelativeRectangle.fromString R.toString = some R := by
  obtain ⟨⟨l⟩, ⟨r⟩, ⟨t⟩, ⟨b⟩⟩ := R
  simp only [printableRectangle, Bool.and_eq_true] at hp
  obtain ⟨⟨⟨hpl, hpr⟩, hpt⟩, hpb⟩ := hp
  have hdata : (RelativeRectangle.toString ⟨⟨l⟩, ⟨r⟩, ⟨t⟩, ⟨b⟩⟩).data
      = printExpression l ++ ',' :: ' ' :: (printExpression t ++ ',' :: ' ' ::
        (printExpression r ++ ',' :: ' ' :: printExpression b)) := by
    simp only [RelativeRectangle.toString, RelativeCoordinate.toString, string_append_data,
      string_data_mk, show (", " : String).data = [',', ' '] from rfl]
    simp
  have h1 : Expression.parse (printExpression l ++ ',' :: ' ' :: (printExpression t
      ++ ',' :: ' ' :: (printExpression r ++ ',' :: ' ' :: printExpression b)))
      = some (l, ',' :: ' ' :: (printExpression t ++ ',' :: ' ' ::
        (printExpression r ++ ',' :: ' ' :: printExpression b))) :=
    parse_printable l hpl _ (by simp [isExprStop])
  have h2 : Expression.parse (' ' :: (printExpression t ++ ',' :: ' ' ::
      (printExpression r ++ ',' :: ' ' :: printExpression b)))
      = some (t, ',' :: ' ' :: (printExpression r ++ ',' :: ' ' :: printExpression b)) :=
    parse_printable_space t hpt _ (by simp [isExprStop])
  have h3 : Expression.parse (' ' :: (printExpression r ++ ',' :: ' ' :: printExpression b))
      = some (r, ',' :: ' ' :: printExpression b) :=
    parse_printable_space r hpr _ (by simp [isExprStop])
  have h4 : Expression.parse (' ' :: printExpression b) = some (b, []) := by
    have := parse_printable_space b hpb [] (by simp [isExprStop])
    simpa using this
  unfold RelativeRectangle.fromString
  rw [hdata]
  simp only [h1, skipComma_comma, h2, h3, h4]

/-- C2 witness. -/
theorem fromString_toString_witness :
    RelativeRectangle.fromString (RelativeRectangle.toString dynamicRectangle)
      = some dynamicRectangle :=
  fromString_toString dynamicRectangle (by decide)
